import Mathlib

/-!
Verification of the component-registry build/install pipeline of shadcn-vue.

This file shallowly embeds the two core parts of the repository:

* the dependency-extraction / registry-assembly pipeline
  (`src/unnamed/part_000`: `buildRegistry`, `crawlUI`, `crawlBlock`,
  `buildUIRegistry`, `buildBlockRegistry`, `getFileDependencies`,
  `populateDeps`, `getBlockMetadata`), and
* the installer
  (`src/packages/cli/src/utils/updaters/update-files.ts`:
  `resolveTargetDir`, `updateFiles`),

and proves/refutes the frozen claims C1-C10 about them.

External collaborators (the SFC/TS parsers, the `transform` contract, the
interactive `confirm` prompt) are modelled as pure function parameters, as
the spec's External Interfaces section prescribes.  The filesystem is
modelled as explicit data (a flat listing for the build-side crawler, a
set of existing paths for the installer) and Node's filesystem calls as
functions over it.  JavaScript truthiness of strings is modelled by
comparison with `""`, `Map`/`Set` by insertion-ordered association lists.
-/

namespace ShadcnVue

/-! ## Path helpers

String-level models of the `pathe` functions used by the sources.  They are
exact for the path shapes that actually occur in the code under scrutiny:
a base without a trailing slash joined with a relative tail that contains
no `.`/`..` segments and no duplicate slashes. -/

/-- Split a character list on a separator, JS `String.prototype.split`
style: the result is never empty, and trailing separators yield a final
empty segment. -/
def splitCharsAux (sep : Char) : List Char → List Char → List (List Char)
  | [], acc => [acc.reverse]
  | c :: cs, acc =>
    if c = sep then acc.reverse :: splitCharsAux sep cs []
    else splitCharsAux sep cs (c :: acc)

/-- The `/`-separated segments of a path or specifier, as strings.
Models JS `p.split('/')`. -/
def segsOf (p : String) : List String :=
  (splitCharsAux '/' p.data []).map String.mk

/-- Models JS `s.startsWith(p)`.  Implemented over the character list so
that concrete instances reduce inside the kernel. -/
def jsStartsWith (s p : String) : Bool := p.data.isPrefixOf s.data

/-- Models JS `s.endsWith(p)`. -/
def jsEndsWith (s p : String) : Bool := p.data.isSuffixOf s.data

/-- Models `path.join(a, b)` for a base without trailing slash and a
relative tail. -/
def pjoin (a b : String) : String := a ++ "/" ++ b

/-- Models `basename(p)`: the part after the last `/`. -/
def basename (p : String) : String := (segsOf p).getLastD ""

/-- Models `path.dirname(p)`: everything before the last `/`. -/
def dirname (p : String) : String :=
  if (segsOf p).length ≤ 1 then "." else String.intercalate "/" (segsOf p).dropLast

/-- Models `path.relative(cwd, p)` for a `p` that lies below `cwd`
(the only case the installer's report lists hit in the theorems below). -/
def relpath (cwd p : String) : String :=
  if jsStartsWith p (cwd ++ "/") then String.mk (p.data.drop (cwd ++ "/").data.length)
  else p

/-- Models JavaScript `s.split('/').at(-1)` (the last `/`-separated
segment); like JS `split`, `segsOf` never returns `[]`. -/
def lastSeg (s : String) : String := (segsOf s).getLastD ""

/-- Models JS `Set.prototype.add`: insertion-ordered, duplicate-free. -/
def addSet (l : List String) (x : String) : List String :=
  if x ∈ l then l else l ++ [x]

/-! ## Dependency classifier (`getFileDependencies` / `populateDeps`)

From `src/unnamed/part_000`, lines 9-23 and 279-323. -/

/-- The static external-dependency table `DEPENDENCIES`:
`[Dependency, [...PeerDependencies]]`. -/
def DEPENDENCIES : List (String × List String) :=
  [("@vueuse/core", []),
   ("vue-sonner", []),
   ("vaul-vue", []),
   ("v-calendar", []),
   ("@tanstack/vue-table", []),
   ("@unovis/vue", ["@unovis/ts"]),
   ("embla-carousel-vue", []),
   ("vee-validate", ["@vee-validate/zod", "zod"])]

/-- The override-tag table `DEPENDENCIES_WITH_TAGS`. -/
def DEPENDENCIES_WITH_TAGS : List (String × String) :=
  [("v-calendar", "v-calendar@next")]

/-- The reserved internal-alias `REGISTRY_DEPENDENCY`. -/
def REGISTRY_DEPENDENCY : String := "@/"

/-- Models `Map.prototype.get` on the two static tables. -/
def lookupPeers (s : String) : Option (List String) :=
  (DEPENDENCIES.find? (fun p => p.1 == s)).map Prod.snd

/-- Models `DEPENDENCIES_WITH_TAGS.get`. -/
def lookupTag (s : String) : Option String :=
  (DEPENDENCIES_WITH_TAGS.find? (fun p => p.1 == s)).map Prod.snd

/-- The two accumulator sets closed over by `populateDeps` inside
`getFileDependencies`. -/
structure DepState where
  dependencies : List String
  registryDependencies : List String
deriving Repr, DecidableEq

/-- The external-dependency half of `populateDeps` (part_000 lines
284-292): a table hit adds the tag-overridden name (or the bare name when
no override exists) and then every peer dependency. -/
def populateDepsCore (st : DepState) (source : String) : DepState :=
  match lookupPeers source with
  | some peers =>
    let base :=
      match lookupTag source with
      | some tg => addSet st.dependencies tg
      | none => addSet st.dependencies source
    { st with dependencies := peers.foldl addSet base }
  | none => st

/-- `populateDeps` (part_000 lines 283-298): classify one import
specifier and accumulate into the two sets; the internal-alias half
(lines 294-297) adds the specifier's last path segment to the
registry-dependency set. -/
def populateDeps (st : DepState) (source : String) : DepState :=
  let st1 := populateDepsCore st source
  if jsStartsWith source REGISTRY_DEPENDENCY then
    { st1 with registryDependencies := addSet st1.registryDependencies (lastSeg source) }
  else st1

/-- A JavaScript runtime value as it can end up in the metadata object:
a literal node's `.value`, `null`, or `undefined` (what reading `.value`
off a non-literal initializer node yields). -/
inductive JSVal where
  | str (s : String)
  | num (n : Int)
  | bool (b : Bool)
  | null
  | undefined
deriving Repr, DecidableEq

/-- An initializer expression, as far as `getBlockMetadata` inspects it:
a literal node carries a `.value`; any other node does not. -/
inductive InitExpr where
  | lit (v : JSVal)
  | nonLit
deriving Repr, DecidableEq

/-- One declarator of a variable declaration: `decl.id.name` and the
optional initializer `decl.init`. -/
structure Declarator where
  dname : String
  init : Option InitExpr
deriving Repr, DecidableEq

/-- A statement of the compiled script AST, as far as the `walk` in
`getBlockMetadata` distinguishes them.  Only `Export...Declaration` nodes
carry a `.declaration` field and in a JS module they occur only at the
top level, so the walk's full traversal acts exactly on the top-level
exported variable declarations; everything else is inert. -/
inductive Stmt where
  | exportVarDecl (decls : List Declarator)
  | otherStmt
deriving Repr, DecidableEq

/-- The parser boundary of spec section 4.1/6: pure functions from a
file's raw text to its parsed forms.  `tsImports` models
`parseSync(...).program.body` import sources for `.ts` files; `sfcScript`
and `sfcScriptSetup` model `parse(...).descriptor.script?.content` and
`.scriptSetup?.content`; `sfcImports` models
`Object.values(compileScript(...).imports).map(v => v.source)`; `sfcAst`
models `compileScript(...).scriptAst`. -/
structure Parser where
  tsImports : String → List String
  sfcScript : String → Option String
  sfcScriptSetup : String → Option String
  sfcImports : String → List String
  sfcAst : String → List Stmt

/-- JS truthiness of `descriptor.script?.content`: the block must exist
and its content must be a non-empty string. -/
def truthyOpt : Option String → Bool
  | some s => s ≠ ""
  | none => false

/-- The import list `getFileDependencies` iterates over (part_000 lines
300-320): `.ts` files go through the module parser; other files go
through the SFC parser and are compiled only when a script or
script-setup block with truthy content exists. -/
def importsOf (P : Parser) (filename source : String) : List String :=
  if jsEndsWith filename ".ts" then P.tsImports source
  else if truthyOpt (P.sfcScript source) || truthyOpt (P.sfcScriptSetup source) then
    P.sfcImports source
  else []

/-- `getFileDependencies` (part_000 lines 279-323): fold `populateDeps`
over every discovered import specifier, starting from two empty sets. -/
def getFileDependencies (P : Parser) (filename source : String) : DepState :=
  (importsOf P filename source).foldl populateDeps ⟨[], []⟩

/-! ## Block metadata extractor (`getBlockMetadata`, part_000 lines 325-353) -/

/-- A JS object, as an insertion-ordered association list of own
properties. -/
abbrev JSObj := List (String × JSVal)

/-- Property assignment `obj[k] = v`: updates an existing key in place
(keys are unique in a JS object), otherwise appends a new own
property. -/
def objSet (m : JSObj) (k : String) (v : JSVal) : JSObj :=
  match m with
  | [] => [(k, v)]
  | p :: rest => if p.1 == k then (k, v) :: rest else p :: objSet rest k v

/-- Property read `obj[k]`, `none` when the property is absent. -/
def objGet (m : JSObj) (k : String) : Option JSVal :=
  (m.find? (fun p => p.1 == k)).map Prod.snd

/-- `decl.init ? decl.init.value : null` (part_000 line 344). -/
def initValue : Option InitExpr → JSVal
  | none => .null
  | some (.lit v) => v
  | some .nonLit => .undefined

/-- The walk's `enter` effect for one declarator (line 344):
`metadata[decl.id.name] = decl.init ? decl.init.value : null` — an
assignment under whatever name is declared, not a lookup of a known
field. -/
def applyDecl (m : JSObj) (d : Declarator) : JSObj :=
  objSet m d.dname (initValue d.init)

/-- The `walk(ast.scriptAst, { enter ... })` of lines 336-348: act on
every exported variable declaration, in order. -/
def walkMetadata (stmts : List Stmt) (m : JSObj) : JSObj :=
  stmts.foldl
    (fun m s =>
      match s with
      | .exportVarDecl ds => ds.foldl applyDecl m
      | .otherStmt => m) m

/-- The initial metadata object (lines 326-330). -/
def initialMetadata : JSObj :=
  [("description", JSVal.null), ("iframeHeight", JSVal.null), ("containerClass", JSVal.null)]

/-- One declarator's effect on the "latest assignment under name `k`"
accumulator (used to state what the walk computes). -/
def declUpd (k : String) (acc : Option (Option InitExpr)) (d : Declarator) :
    Option (Option InitExpr) :=
  if d.dname == k then some d.init else acc

/-- One statement's effect on the "latest assignment under name `k`"
accumulator. -/
def stmtUpd (k : String) (acc : Option (Option InitExpr)) (s : Stmt) :
    Option (Option InitExpr) :=
  match s with
  | .exportVarDecl ds => ds.foldl (declUpd k) acc
  | .otherStmt => acc

/-- The initializer of the last top-level exported declarator named `k`,
if one exists. -/
def lastAssign (stmts : List Stmt) (k : String) : Option (Option InitExpr) :=
  stmts.foldl (stmtUpd k) none

/-- `getBlockMetadata` (lines 325-353): only `.vue` files with a plain
`<script>` block of truthy content are walked; `scriptSetup` is never
consulted. -/
def getBlockMetadata (P : Parser) (filename source : String) : JSObj :=
  if jsEndsWith filename ".vue" then
    if truthyOpt (P.sfcScript source) then walkMetadata (P.sfcAst source) initialMetadata
    else initialMetadata
  else initialMetadata

/-! ## Directory crawler (part_000 lines 51-158, 199-277)

The filesystem subtree under a crawl root is a flat listing of all its
strict descendants.  `segs` is the entry's path relative to the root.
With `withFileTypes: true` — also under `recursive: true` — a Node
`Dirent`'s `name` is always the entry's base name only.  The list order
models `readdir`'s enumeration order; Node lists a parent's entries
before the entries of its subdirectories, and no theorem below depends
on the interleaving between entries of different directories. -/

structure FSNode where
  segs : List String
  isDir : Bool
  content : String
deriving Repr, DecidableEq

structure FSDir where
  nodes : List FSNode
deriving Repr, DecidableEq

/-- The `readdir(path, { withFileTypes: true })` view: entries directly
inside the root. -/
def childrenOf (fs : FSDir) : List FSNode :=
  fs.nodes.filter (fun nd => nd.segs.length == 1)

/-- The `readdir(path, { recursive: true, withFileTypes: true })` view:
all strict descendants. -/
def recListing (fs : FSDir) : List FSNode := fs.nodes

/-- The base name of a listed entry (what `dirent.name` reports). -/
def nodeName (nd : FSNode) : String := nd.segs.getLastD ""

/-- The subtree rooted at immediate child `n`. -/
def subdirAt (fs : FSDir) (n : String) : FSDir :=
  ⟨fs.nodes.filterMap (fun nd =>
    match nd.segs with
    | m :: rest =>
      if m == n && !rest.isEmpty then some { nd with segs := rest } else none
    | [] => none)⟩

/-- Look up an immediate child by name — what `resolve(root, name)`
followed by a filesystem call reaches. -/
def findChild (fs : FSDir) (n : String) : Option FSNode :=
  fs.nodes.find? (fun nd => nd.segs == [n])

/-- Node `readFile` at relative path `p`: fails when the path is absent
or is a directory. -/
def readFileAt (fs : FSDir) (p : List String) : Except String String :=
  match fs.nodes.find? (fun nd => nd.segs == p) with
  | some nd => if nd.isDir then .error "EISDIR" else .ok nd.content
  | none => .error "ENOENT"

/-- A build-side registry file record.  (Example/block file records in
the source carry an additional `name` field; no claim mentions it, so it
is omitted.) -/
structure RegFileB where
  path : String
  content : String
  target : String
  ftype : String
deriving Repr, DecidableEq

/-- A build-side registry item. -/
structure RegItem where
  name : String
  rtype : String
  files : List RegFileB
  registryDependencies : List String
  dependencies : List String
deriving Repr, DecidableEq

/-- Models JS `s.split(sep)[0]`: the characters before the first
occurrence of `sep`. -/
def takeUntilSub (sep : List Char) : List Char → List Char
  | [] => []
  | c :: cs => if sep.isPrefixOf (c :: cs) then [] else c :: takeUntilSub sep cs

/-- `dirent.name.split('.vue')[0]`. -/
def jsSplitHead (s sep : String) : String := String.mk (takeUntilSub sep.data s.data)

/-- The accumulator loop of `buildUIRegistry` (part_000 lines 209-230)
over the component directory's entries: collect every file, and union
dependency sets of every file except the `index.ts` barrel. -/
def buildUIAux (P : Parser) (componentPath componentName : String) :
    List FSNode → List RegFileB → List String → List String → RegItem
  | [], files, deps, rdeps => ⟨componentName, "registry:ui", files, rdeps, deps⟩
  | nd :: rest, files, deps, rdeps =>
    if nd.isDir then buildUIAux P componentPath componentName rest files deps rdeps
    else
      let name := nodeName nd
      let relativePath := pjoin (pjoin "ui" componentName) name
      let target := componentName ++ "/" ++ name
      let files := files ++ [⟨relativePath, nd.content, target, "registry:ui"⟩]
      if name == "index.ts" then buildUIAux P componentPath componentName rest files deps rdeps
      else
        let fd := getFileDependencies P (pjoin componentPath name) nd.content
        buildUIAux P componentPath componentName rest files
          (fd.dependencies.foldl addSet deps) (fd.registryDependencies.foldl addSet rdeps)

/-- `buildUIRegistry` (part_000 lines 199-239), given the component
directory's subtree. -/
def buildUIRegistry (P : Parser) (componentPath : String) (sub : FSDir)
    (componentName : String) : RegItem :=
  buildUIAux P componentPath componentName (childrenOf sub) [] [] []

/-- The loop of `crawlUI` (part_000 lines 56-63) over the *recursive*
listing of the ui root: every directory entry, at any depth but known
only by its base name, is resolved against the crawl root and built as a
UI component.  The `readdir` inside `buildUIRegistry` fails (surfaced
here at the call site) when the root has no immediate child of that
name, or that child is a file. -/
def crawlUIAux (P : Parser) (rootPath : String) (fs : FSDir) :
    List FSNode → Except String (List RegItem)
  | [] => .ok []
  | nd :: rest =>
    if nd.isDir then
      match findChild fs (nodeName nd) with
      | none => .error "ENOENT"
      | some child =>
        if child.isDir then
          match crawlUIAux P rootPath fs rest with
          | .ok items =>
            .ok (buildUIRegistry P (pjoin rootPath (nodeName nd))
                  (subdirAt fs (nodeName nd)) (nodeName nd) :: items)
          | .error e => .error e
        else .error "ENOTDIR"
    else crawlUIAux P rootPath fs rest

/-- `crawlUI` (part_000 lines 51-66). -/
def crawlUI (P : Parser) (rootPath : String) (fs : FSDir) :
    Except String (List RegItem) :=
  crawlUIAux P rootPath fs (recListing fs)

/-- The accumulator loop of `buildBlockRegistry` (part_000 lines
248-268) over the block directory's *recursive* listing: every file
entry, known by its base name, is read back either as the top-level
`page.vue` or from the `components/` subfolder. -/
def buildBlockAux (P : Parser) (blockPath blockName : String) (sub : FSDir) :
    List FSNode → List RegFileB → List String → List String → Except String RegItem
  | [], files, deps, rdeps => .ok ⟨blockName, "registry:block", files, rdeps, deps⟩
  | nd :: rest, files, deps, rdeps =>
    if nd.isDir then buildBlockAux P blockPath blockName sub rest files deps rdeps
    else
      let name := nodeName nd
      let isPage := name == "page.vue"
      let ftype := if isPage then "registry:page" else "registry:component"
      let compPath := if isPage then name else pjoin "components" name
      let compSegs := if isPage then [name] else ["components", name]
      let relativePath := pjoin (pjoin "block" blockName) compPath
      let target := if isPage then "pages/dashboard/index.vue" else ""
      match readFileAt sub compSegs with
      | .error e => .error e
      | .ok source =>
        let files := files ++ [⟨relativePath, source, target, ftype⟩]
        let fd := getFileDependencies P (pjoin blockPath compPath) source
        buildBlockAux P blockPath blockName sub rest files
          (fd.dependencies.foldl addSet deps) (fd.registryDependencies.foldl addSet rdeps)

/-- `buildBlockRegistry` (part_000 lines 241-277), given the block
directory's subtree. -/
def buildBlockRegistry (P : Parser) (blockPath : String) (sub : FSDir)
    (blockName : String) : Except String RegItem :=
  buildBlockAux P blockPath blockName sub (recListing sub) [] [] []

/-- The loop of `crawlBlock` (part_000 lines 115-155) over the block
root's immediate entries: a non-file entry is built as a block item and
appended only when it assembled at least one file; a `.vue` file becomes
a single-file block item with the fixed dashboard-page target. -/
def crawlBlockAux (P : Parser) (rootPath : String) (fs : FSDir) :
    List FSNode → Except String (List RegItem)
  | [] => .ok []
  | nd :: rest =>
    if nd.isDir then
      match buildBlockRegistry P (rootPath ++ "/" ++ nodeName nd)
              (subdirAt fs (nodeName nd)) (nodeName nd) with
      | .error e => .error e
      | .ok result =>
        match crawlBlockAux P rootPath fs rest with
        | .ok items => .ok (if result.files.isEmpty then items else result :: items)
        | .error e => .error e
    else
      if jsEndsWith (nodeName nd) ".vue" then
        let name := jsSplitHead (nodeName nd) ".vue"
        let relativePath := pjoin "block" (nodeName nd)
        let file : RegFileB := ⟨relativePath, nd.content, "pages/dashboard/index.vue", "registry:block"⟩
        let fd := getFileDependencies P (pjoin rootPath (nodeName nd)) nd.content
        match crawlBlockAux P rootPath fs rest with
        | .ok items =>
          .ok (⟨name, "registry:block", [file], fd.registryDependencies, fd.dependencies⟩ :: items)
        | .error e => .error e
      else crawlBlockAux P rootPath fs rest

/-- `crawlBlock` (part_000 lines 108-158): a *non-recursive* `readdir`
of the block root. -/
def crawlBlock (P : Parser) (rootPath : String) (fs : FSDir) :
    Except String (List RegItem) :=
  crawlBlockAux P rootPath fs (childrenOf fs)

/-- The immediate subdirectories of a crawl root. -/
def depth1Dirs (fs : FSDir) : List FSNode :=
  fs.nodes.filter (fun nd => nd.segs.length == 1 && nd.isDir)

/-- Specified from the spec's words, for the C3 refinement: the files of
the UI item for component `n` are exactly the files directly inside the
component's directory, with target `{componentName}/{fileName}`. -/
def uiFilesSpec (fs : FSDir) (n : String) : List RegFileB :=
  fs.nodes.filterMap (fun nd =>
    match nd.segs with
    | [m, f] =>
      if m == n && !nd.isDir then
        some ⟨pjoin (pjoin "ui" n) f, nd.content, n ++ "/" ++ f, "registry:ui"⟩
      else none
    | _ => none)

/-! ## Installer (`update-files.ts`) -/

/-- The `getProjectInfo` result, as far as `resolveTargetDir` receives
it.  The current source ignores it: its src-dir branch is commented
out. -/
structure ProjectInfo where
  isSrcDir : Bool
deriving Repr, DecidableEq

/-- Project configuration, as far as `updateFiles` reads it.
`conventionDir` — Modelled from the spec: `getRegistryItemFileTargetPath`
is not among the provided sources; per spec section 4.6 step 2 it maps a
file to its component-type-specific destination directory, so it is kept
as an opaque function of the file's type. -/
structure Config where
  cwd : String
  typescript : Bool
  conventionDir : String → String

structure InstallOptions where
  overwrite : Bool
  force : Bool
  silent : Bool
deriving Repr, DecidableEq

/-- A registry file as the installer receives it. -/
structure RegFile where
  path : String
  content : String
  target : String
  ftype : String
deriving Repr, DecidableEq

/-- The on-disk state the installer can observe: the sets of existing
file and directory paths.  Written contents are recorded in the event
trace instead. -/
structure FSModel where
  files : List String
  dirs : List String
deriving Repr, DecidableEq

/-- `existsSync`: the path exists as a file or as a directory. -/
def existsSyncB (fs : FSModel) (p : String) : Bool :=
  decide (p ∈ fs.files) || decide (p ∈ fs.dirs)

/-- JS `Map<string, boolean>.set`: update an existing key in place (map
keys are unique), otherwise append. -/
def mapSet (m : List (String × Bool)) (k : String) (v : Bool) : List (String × Bool) :=
  match m with
  | [] => [(k, v)]
  | p :: rest => if p.1 == k then (k, v) :: rest else p :: mapSet rest k v

/-- JS `Map<string, boolean>.get`. -/
def mapGet (m : List (String × Bool)) (k : String) : Option Bool :=
  (m.find? (fun p => p.1 == k)).map Prod.snd

/-- Observable installer events, in order: prompts issued (with the
boundary's answer) and file writes performed. -/
inductive Ev where
  | folderPrompt (folderName : String) (answer : Bool)
  | filePrompt (fileName : String) (answer : Bool)
  | wrote (ftype srcPath destPath : String)
deriving Repr, DecidableEq

/-- The installer's environment: configuration, options, and the
external boundaries of spec section 6 — `confirm` as a pure function of
the prompted name, `transform` as a pure function of the file. -/
structure Env where
  config : Config
  options : InstallOptions
  projectInfo : ProjectInfo
  answerFolder : String → Bool
  answerFile : String → Bool
  transformF : String → String → String

/-- The installer's state during a run. -/
structure IState where
  fs : FSModel
  folderSkipped : List (String × Bool)
  filesCreated : List String
  filesUpdated : List String
  filesSkipped : List String
  trace : List Ev

/-- `resolveTargetDir` (update-files.ts lines 17-29).  Under the
`startsWith('~/')` guard, JS `target.replace('~/', '')` removes the
leftmost occurrence, i.e. the first two characters.  The commented-out
src-dir branch is absent from the live code: both cases resolve against
`config.resolvedPaths.cwd`. -/
def resolveTargetDir (_pInfo : ProjectInfo) (config : Config) (target : String) : String :=
  if jsStartsWith target "~/" then pjoin config.cwd (String.mk (target.data.drop 2))
  else pjoin config.cwd target

/-- `filePath.replace(/\.ts?$/, '.js')` (line 78): the regex matches a
trailing `.t` or `.ts`, replaced by `.js`. -/
def replaceTsExt (p : String) : String :=
  if jsEndsWith p ".ts" then String.mk (p.data.take (p.data.length - 2)) ++ "js"
  else if jsEndsWith p ".t" then String.mk (p.data.take (p.data.length - 1)) ++ "js"
  else p

/-- The destination path before the extension adjustment
(update-files.ts lines 68-75). -/
def rawFilePathOf (env : Env) (f : RegFile) : String :=
  if f.target ≠ "" then resolveTargetDir env.projectInfo env.config f.target
  else pjoin (env.config.conventionDir f.ftype) (basename f.path)

/-- The destination path of one file (lines 68-79). -/
def filePathOf (env : Env) (f : RegFile) : String :=
  if env.config.typescript then rawFilePathOf env f
  else replaceTsExt (rawFilePathOf env f)

/-- The destination directory of one file (lines 68, 74). -/
def targetDirOf (env : Env) (f : RegFile) : String :=
  if f.target ≠ "" then dirname (resolveTargetDir env.projectInfo env.config f.target)
  else env.config.conventionDir f.ftype

/-- Lines 129-145: ensure the target directory exists, transform, write,
and classify as created or updated by the existence check made before
the write. -/
def writeStep (env : Env) (st : IState) (f : RegFile) (filePath targetDir : String)
    (existingFile : Bool) : IState :=
  let fs1 := if existsSyncB st.fs targetDir then st.fs
             else { st.fs with dirs := st.fs.dirs ++ [targetDir] }
  let fs2 := { fs1 with files := addSet fs1.files filePath }
  let rel := relpath env.config.cwd filePath
  { st with
    fs := fs2
    trace := st.trace ++ [Ev.wrote f.ftype f.path filePath]
    filesUpdated := if existingFile then st.filesUpdated ++ [rel] else st.filesUpdated
    filesCreated := if existingFile then st.filesCreated else st.filesCreated ++ [rel] }

/-- One iteration of the `for (const file of files)` loop of
`updateFiles` (update-files.ts lines 63-146). -/
def processFile (env : Env) (st : IState) (f : RegFile) : IState :=
  if f.content = "" then st
  else
    let filePath := filePathOf env f
    let targetDir := targetDirOf env f
    let existingFile := existsSyncB st.fs filePath
    if f.ftype = "registry:ui" then
      let folderName := basename (dirname filePath)
      let fsk0 := if existsSyncB st.fs (dirname filePath) then st.folderSkipped
                  else mapSet st.folderSkipped folderName false
      let doPrompt := (mapGet fsk0 folderName).isNone
      let ans := env.answerFolder folderName
      let fsk1 := if doPrompt then mapSet fsk0 folderName (!ans) else fsk0
      let tr1 := if doPrompt then st.trace ++ [Ev.folderPrompt folderName ans] else st.trace
      let st1 : IState := { st with folderSkipped := fsk1, trace := tr1 }
      if mapGet fsk1 folderName = some true then
        { st1 with filesSkipped := st1.filesSkipped ++ [relpath env.config.cwd filePath] }
      else writeStep env st1 f filePath targetDir existingFile
    else
      if existingFile && !env.options.overwrite then
        let ans := env.answerFile (basename f.path)
        let st1 : IState := { st with trace := st.trace ++ [Ev.filePrompt (basename f.path) ans] }
        if ans then writeStep env st1 f filePath targetDir existingFile
        else { st1 with filesSkipped := st1.filesSkipped ++ [relpath env.config.cwd filePath] }
      else writeStep env st f filePath targetDir existingFile

/-- The observable result of an `updateFiles` call. -/
structure UpdateResult where
  state : IState
  noFilesSignal : Bool
  ran : Bool

/-- The state `updateFiles` sets up in lines 58-61. -/
def initState (fs0 : FSModel) : IState := ⟨fs0, [], [], [], [], []⟩

/-- `updateFiles` (lines 31-204): the `!files?.length` guard returns
before any reporting; otherwise every file is processed strictly in
order, and the neutral `'No files updated.'` signal fires exactly when
all three report lists are empty. -/
def updateFiles (env : Env) (fs0 : FSModel) (files : List RegFile) : UpdateResult :=
  if files.isEmpty then ⟨initState fs0, false, false⟩
  else
    let st := files.foldl (processFile env) (initState fs0)
    ⟨st, (st.filesCreated.isEmpty && st.filesUpdated.isEmpty) && st.filesSkipped.isEmpty, true⟩

/-- The folder names for which a folder-conflict prompt was issued. -/
def folderPromptNames (tr : List Ev) : List String :=
  tr.filterMap (fun e => match e with | .folderPrompt n _ => some n | _ => none)

/-- The folder name under which the UI conflict cache tracks a file:
`basename(dirname(filePath))` (update-files.ts line 85). -/
def folderNameOf (env : Env) (f : RegFile) : String :=
  basename (dirname (filePathOf env f))

/-! ## Closed instances

Concrete parsers, environments and inputs used to evaluate the
development on closed inputs. -/

/-- Every string `populateDeps` can ever add to the external-dependency
set, given the two static tables: the tag override and all table values
reachable through `DEPENDENCIES`. -/
def depUniverse : List String :=
  ["@vueuse/core", "vue-sonner", "vaul-vue", "v-calendar@next",
   "@tanstack/vue-table", "@unovis/vue", "@unovis/ts", "embla-carousel-vue",
   "vee-validate", "@vee-validate/zod", "zod"]

/-- A parser oracle returning a fixed import list for `.ts` files. -/
def constParser (imports : List String) : Parser :=
  ⟨fun _ => imports, fun _ => none, fun _ => none, fun _ => [], fun _ => []⟩

/-- A parser oracle for a composite file with a plain script block. -/
def sfcParser (script : Option String) (ast : List Stmt) : Parser :=
  ⟨fun _ => [], fun _ => script, fun _ => none, fun _ => [], fun _ => ast⟩

/-- A parser oracle for a composite file whose only script section is a
setup script that even exports a variable named `description`. -/
def setupOnlyParser : Parser :=
  ⟨fun _ => [], fun _ => none, fun _ => some "export const description = 'x'",
   fun _ => [],
   fun _ => [Stmt.exportVarDecl [⟨"description", some (InitExpr.lit (JSVal.str "x"))⟩]]⟩

/-- A fixed import list exercising a tag override, peers and the
internal alias. -/
def wImports : List String :=
  ["v-calendar", "vee-validate", "@/components/ui/bar", "vue"]

/-- A parser oracle for a composite file whose plain script exports a
variable named `foo` with a string literal and a variable named
`description` with a non-literal initializer. -/
def metaCexParser : Parser :=
  sfcParser (some "s")
    [Stmt.exportVarDecl [⟨"foo", some (InitExpr.lit (JSVal.str "x"))⟩,
                         ⟨"description", some InitExpr.nonLit⟩]]

/-- A concrete installer configuration: project root `/p`, typed. -/
def cfg0 : Config := ⟨"/p", true, fun _ => "/p/components/ui"⟩

/-- An installer environment whose confirm boundary declines every
prompt. -/
def envDecline : Env :=
  ⟨cfg0, ⟨false, false, false⟩, ⟨false⟩, fun _ => false, fun _ => false,
   fun _ raw => raw⟩

/-- An installer environment with `overwrite: true`. -/
def envOverwrite : Env :=
  ⟨cfg0, ⟨true, false, false⟩, ⟨false⟩, fun _ => false, fun _ => false,
   fun _ raw => raw⟩

/-- Two UI files destined to two different directories that share the
base name `btn`; only the first directory exists on disk. -/
def uiFileA : RegFile := ⟨"ui/btn/a.vue", "ca", "x/btn/a.vue", "registry:ui"⟩

/-- See `uiFileA`. -/
def uiFileB : RegFile := ⟨"ui/btn/b.vue", "cb", "y/btn/b.vue", "registry:ui"⟩

/-- A second UI file destined to the same existing `btn` directory as
`uiFileA`. -/
def uiFileC : RegFile := ⟨"ui/btn/c.vue", "cc", "x/btn/c.vue", "registry:ui"⟩

/-- A non-UI file whose destination exists in `fsBtn`. -/
def exampleFileD : RegFile := ⟨"example/d.vue", "cd", "x/btn/d.vue", "registry:example"⟩

/-- Initial disk state: only the directory `/p/x/btn` and the file
`/p/x/btn/d.vue` exist. -/
def fsBtn : FSModel := ⟨["/p/x/btn/d.vue"], ["/p/x/btn"]⟩

/-- A ui root with one immediate subdirectory `a` that itself contains a
directory `b` — the nested-directory counterexample for C3. -/
def fsNested : FSDir := ⟨[⟨["a"], true, ""⟩, ⟨["a", "b"], true, ""⟩]⟩

/-- A flat ui root: one component directory `btn` holding two files. -/
def fsFlatUI : FSDir :=
  ⟨[⟨["btn"], true, ""⟩, ⟨["btn", "btn.vue"], false, "s1"⟩,
    ⟨["btn", "index.ts"], false, "s2"⟩]⟩

/-- A block root holding one block directory `b1` that contains only an
empty `components/` subfolder. -/
def fsEmptyBlock : FSDir := ⟨[⟨["b1"], true, ""⟩, ⟨["b1", "components"], true, ""⟩]⟩

/-! # Theorems -/

/-! ## Set and map lemmas -/

theorem mem_addSet_self (l : List String) (x : String) : x ∈ addSet l x := by
  unfold addSet
  split
  · assumption
  · simp

theorem mem_addSet_of_mem {l : List String} {y : String} (x : String)
    (h : y ∈ l) : y ∈ addSet l x := by
  unfold addSet
  split
  · exact h
  · simp [h]

theorem mem_of_mem_addSet {l : List String} {x y : String}
    (h : y ∈ addSet l x) : y ∈ l ∨ y = x := by
  unfold addSet at h
  split at h
  · exact Or.inl h
  · simpa using h

theorem mem_foldl_addSet_of_mem {l : List String} {y : String}
    (xs : List String) (h : y ∈ l) : y ∈ xs.foldl addSet l := by
  induction xs generalizing l with
  | nil => simpa using h
  | cons x xs ih => exact ih (mem_addSet_of_mem x h)

theorem mem_foldl_addSet_of_mem_list {xs : List String} {y : String}
    (l : List String) (h : y ∈ xs) : y ∈ xs.foldl addSet l := by
  induction xs generalizing l with
  | nil => cases h
  | cons x xs ih =>
    rcases List.mem_cons.mp h with h | h
    · subst h
      exact mem_foldl_addSet_of_mem xs (mem_addSet_self l y)
    · exact ih (addSet l x) h

theorem mem_of_mem_foldl_addSet {xs : List String} {l : List String}
    {y : String} (h : y ∈ xs.foldl addSet l) : y ∈ l ∨ y ∈ xs := by
  induction xs generalizing l with
  | nil => exact Or.inl (by simpa using h)
  | cons x xs ih =>
    rcases @ih (addSet l x) h with h' | h'
    · rcases mem_of_mem_addSet h' with h'' | h''
      · exact Or.inl h''
      · exact Or.inr (by simp [h''])
    · exact Or.inr (by simp [h'])

/-! ## Dependency classifier lemmas -/

theorem lookupPeers_cases {s : String} {peers : List String}
    (h : lookupPeers s = some peers) :
    s = "@vueuse/core" ∧ peers = [] ∨ s = "vue-sonner" ∧ peers = [] ∨
    s = "vaul-vue" ∧ peers = [] ∨ s = "v-calendar" ∧ peers = [] ∨
    s = "@tanstack/vue-table" ∧ peers = [] ∨
    s = "@unovis/vue" ∧ peers = ["@unovis/ts"] ∨
    s = "embla-carousel-vue" ∧ peers = [] ∨
    s = "vee-validate" ∧ peers = ["@vee-validate/zod", "zod"] := by
  unfold lookupPeers at h
  rcases Option.map_eq_some'.mp h with ⟨⟨k, v⟩, hfind, hsnd⟩
  have hmem := List.mem_of_find?_eq_some hfind
  have hkey := List.find?_some hfind
  simp only [beq_iff_eq] at hkey
  simp only at hsnd
  subst hkey
  subst hsnd
  simp only [DEPENDENCIES, List.mem_cons, List.not_mem_nil, or_false,
    Prod.mk.injEq] at hmem
  tauto

theorem lookupTag_cases {s t : String} (h : lookupTag s = some t) :
    s = "v-calendar" ∧ t = "v-calendar@next" := by
  unfold lookupTag at h
  rcases Option.map_eq_some'.mp h with ⟨⟨k, v⟩, hfind, hsnd⟩
  have hmem := List.mem_of_find?_eq_some hfind
  have hkey := List.find?_some hfind
  simp only [beq_iff_eq] at hkey
  simp only at hsnd
  subst hkey
  subst hsnd
  simp only [DEPENDENCIES_WITH_TAGS, List.mem_cons, List.not_mem_nil, or_false,
    Prod.mk.injEq] at hmem
  exact hmem

theorem populateDeps_dependencies (st : DepState) (s : String) :
    (populateDeps st s).dependencies = (populateDepsCore st s).dependencies := by
  simp only [populateDeps]
  split <;> rfl

theorem populateDepsCore_registryDependencies (st : DepState) (s : String) :
    (populateDepsCore st s).registryDependencies = st.registryDependencies := by
  unfold populateDepsCore
  split <;> rfl

theorem populateDeps_registryDependencies (st : DepState) (s : String) :
    (populateDeps st s).registryDependencies =
      if jsStartsWith s REGISTRY_DEPENDENCY then
        addSet st.registryDependencies (lastSeg s)
      else st.registryDependencies := by
  simp only [populateDeps]
  split
  · simp [populateDepsCore_registryDependencies]
  · simp [populateDepsCore_registryDependencies]

theorem deps_mono_populateDeps {st : DepState} {y : String} (s : String)
    (h : y ∈ st.dependencies) : y ∈ (populateDeps st s).dependencies := by
  rw [populateDeps_dependencies]
  unfold populateDepsCore
  cases hl : lookupPeers s with
  | none => simpa using h
  | some peers =>
    simp only
    refine mem_foldl_addSet_of_mem _ ?_
    cases lookupTag s
    · exact mem_addSet_of_mem _ h
    · exact mem_addSet_of_mem _ h

theorem deps_mono_run (l : List String) {st : DepState} {y : String}
    (h : y ∈ st.dependencies) : y ∈ (l.foldl populateDeps st).dependencies := by
  induction l generalizing st with
  | nil => simpa using h
  | cons x xs ih => exact ih (deps_mono_populateDeps x h)

theorem rdeps_mono_populateDeps {st : DepState} {y : String} (s : String)
    (h : y ∈ st.registryDependencies) :
    y ∈ (populateDeps st s).registryDependencies := by
  rw [populateDeps_registryDependencies]
  split
  · exact mem_addSet_of_mem _ h
  · exact h

theorem rdeps_mono_run (l : List String) {st : DepState} {y : String}
    (h : y ∈ st.registryDependencies) :
    y ∈ (l.foldl populateDeps st).registryDependencies := by
  induction l generalizing st with
  | nil => simpa using h
  | cons x xs ih => exact ih (rdeps_mono_populateDeps x h)

theorem populateDeps_table_hit {s : String} {peers : List String}
    (st : DepState) (h : lookupPeers s = some peers) :
    (∀ t, lookupTag s = some t → t ∈ (populateDeps st s).dependencies) ∧
    (lookupTag s = none → s ∈ (populateDeps st s).dependencies) ∧
    ∀ p ∈ peers, p ∈ (populateDeps st s).dependencies := by
  have hdep : (populateDeps st s).dependencies =
      peers.foldl addSet
        (match lookupTag s with
         | some tg => addSet st.dependencies tg
         | none => addSet st.dependencies s) := by
    rw [populateDeps_dependencies]
    unfold populateDepsCore
    rw [h]
  refine ⟨?_, ?_, ?_⟩
  · intro t ht
    rw [hdep, ht]
    exact mem_foldl_addSet_of_mem _ (mem_addSet_self _ _)
  · intro ht
    rw [hdep, ht]
    exact mem_foldl_addSet_of_mem _ (mem_addSet_self _ _)
  · intro p hp
    rw [hdep]
    exact mem_foldl_addSet_of_mem_list _ hp

theorem run_table_hit {l : List String} {s : String} {peers : List String}
    (st : DepState) (hs : s ∈ l) (h : lookupPeers s = some peers) :
    (∀ t, lookupTag s = some t → t ∈ (l.foldl populateDeps st).dependencies) ∧
    (lookupTag s = none → s ∈ (l.foldl populateDeps st).dependencies) ∧
    ∀ p ∈ peers, p ∈ (l.foldl populateDeps st).dependencies := by
  induction l generalizing st with
  | nil => cases hs
  | cons x xs ih =>
    rcases List.mem_cons.mp hs with hx | hx
    · subst hx
      have hh := populateDeps_table_hit st h
      exact ⟨fun t ht => deps_mono_run xs (hh.1 t ht),
             fun ht => deps_mono_run xs (hh.2.1 ht),
             fun p hp => deps_mono_run xs (hh.2.2 p hp)⟩
    · exact ih _ hx

theorem peers_subset_universe {s : String} {peers : List String}
    (h : lookupPeers s = some peers) : ∀ y ∈ peers, y ∈ depUniverse := by
  rcases lookupPeers_cases h with ⟨_, hp⟩ | ⟨_, hp⟩ | ⟨_, hp⟩ | ⟨_, hp⟩ |
    ⟨_, hp⟩ | ⟨_, hp⟩ | ⟨_, hp⟩ | ⟨_, hp⟩ <;> subst hp <;> decide

theorem deps_subset_populateDeps {st : DepState} {s y : String}
    (h : y ∈ (populateDeps st s).dependencies) :
    y ∈ st.dependencies ∨ y ∈ depUniverse := by
  rw [populateDeps_dependencies] at h
  unfold populateDepsCore at h
  cases hl : lookupPeers s with
  | none => rw [hl] at h; exact Or.inl h
  | some peers =>
    rw [hl] at h
    simp only at h
    cases ht : lookupTag s with
    | some tg =>
      rw [ht] at h
      rcases mem_of_mem_foldl_addSet h with h' | h'
      · rcases mem_of_mem_addSet h' with h'' | h''
        · exact Or.inl h''
        · subst h''
          rcases lookupTag_cases ht with ⟨_, htg⟩
          subst htg
          exact Or.inr (by decide)
      · exact Or.inr (peers_subset_universe hl y h')
    | none =>
      rw [ht] at h
      rcases mem_of_mem_foldl_addSet h with h' | h'
      · rcases mem_of_mem_addSet h' with h'' | h''
        · exact Or.inl h''
        · subst h''
          rcases lookupPeers_cases hl with ⟨hs, _⟩ | ⟨hs, _⟩ | ⟨hs, _⟩ | ⟨hs, _⟩ |
            ⟨hs, _⟩ | ⟨hs, _⟩ | ⟨hs, _⟩ | ⟨hs, _⟩ <;> subst hs
          · exact Or.inr (by decide)
          · exact Or.inr (by decide)
          · exact Or.inr (by decide)
          · exact absurd ht (by decide)
          · exact Or.inr (by decide)
          · exact Or.inr (by decide)
          · exact Or.inr (by decide)
          · exact Or.inr (by decide)
      · exact Or.inr (peers_subset_universe hl y h')

theorem deps_run_subset {l : List String} {y : String} :
    ∀ {st : DepState}, y ∈ (l.foldl populateDeps st).dependencies →
      y ∈ st.dependencies ∨ y ∈ depUniverse := by
  induction l with
  | nil =>
    intro st h
    exact Or.inl (by simpa using h)
  | cons x xs ih =>
    intro st h
    rcases @ih (populateDeps st x) h with h' | h'
    · exact deps_subset_populateDeps h'
    · exact Or.inr h'

/-- C2: for every import specifier that is a key of the
external-dependency table, the extracted dependency set contains the
override specifier when one exists — and then not the bare name — or
else the bare name itself, plus every declared peer package by its bare
name; for every file the extraction runs over. -/
theorem spec_C2_table_key_dependencies
    (P : Parser) (fn src s : String) (peers : List String)
    (hmem : s ∈ importsOf P fn src) (hpeers : lookupPeers s = some peers) :
    (∀ p ∈ peers, p ∈ (getFileDependencies P fn src).dependencies) ∧
    (∀ t, lookupTag s = some t →
        t ∈ (getFileDependencies P fn src).dependencies ∧
        s ∉ (getFileDependencies P fn src).dependencies) ∧
    (lookupTag s = none → s ∈ (getFileDependencies P fn src).dependencies) := by
  simp only [getFileDependencies]
  have hr := @run_table_hit (importsOf P fn src) s peers ⟨[], []⟩ hmem hpeers
  refine ⟨hr.2.2, ?_, hr.2.1⟩
  intro t ht
  refine ⟨hr.1 t ht, ?_⟩
  intro hcontra
  rcases deps_run_subset hcontra with h0 | h0
  · simp at h0
  · rcases lookupTag_cases ht with ⟨hs, _⟩
    subst hs
    exact absurd h0 (by decide)

theorem spec_C2_table_key_dependencies_witness :
    "v-calendar@next" ∈ (getFileDependencies (constParser wImports) "a.ts" "x").dependencies ∧
    "v-calendar" ∉ (getFileDependencies (constParser wImports) "a.ts" "x").dependencies ∧
    "zod" ∈ (getFileDependencies (constParser wImports) "a.ts" "x").dependencies := by
  have h1 := spec_C2_table_key_dependencies (constParser wImports) "a.ts" "x"
    "v-calendar" [] (by decide) (by decide)
  have h2 := spec_C2_table_key_dependencies (constParser wImports) "a.ts" "x"
    "vee-validate" ["@vee-validate/zod", "zod"] (by decide) (by decide)
  exact ⟨(h1.2.1 "v-calendar@next" rfl).1, (h1.2.1 "v-calendar@next" rfl).2,
    h2.1 "zod" (by decide)⟩

theorem lookupPeers_none_of_alias {s : String}
    (h : jsStartsWith s REGISTRY_DEPENDENCY = true) : lookupPeers s = none := by
  cases hl : lookupPeers s with
  | none => rfl
  | some peers =>
    rcases lookupPeers_cases hl with ⟨hs, _⟩ | ⟨hs, _⟩ | ⟨hs, _⟩ | ⟨hs, _⟩ |
      ⟨hs, _⟩ | ⟨hs, _⟩ | ⟨hs, _⟩ | ⟨hs, _⟩ <;> subst hs <;>
      exact absurd h (by decide)

theorem populateDeps_alias (st : DepState) {s : String}
    (h : jsStartsWith s REGISTRY_DEPENDENCY = true) :
    populateDeps st s =
      { st with registryDependencies := addSet st.registryDependencies (lastSeg s) } := by
  have hc : populateDepsCore st s = st := by
    unfold populateDepsCore
    rw [lookupPeers_none_of_alias h]
  simp only [populateDeps, hc, h, if_true]

theorem populateDeps_ignored (st : DepState) {s : String}
    (h1 : lookupPeers s = none) (h2 : jsStartsWith s REGISTRY_DEPENDENCY = false) :
    populateDeps st s = st := by
  have hc : populateDepsCore st s = st := by
    unfold populateDepsCore
    rw [h1]
  simp only [populateDeps, hc, h2, Bool.false_eq_true, if_false]

theorem run_alias_hit {l : List String} {s : String} (st : DepState)
    (hs : s ∈ l) (h : jsStartsWith s REGISTRY_DEPENDENCY = true) :
    lastSeg s ∈ (l.foldl populateDeps st).registryDependencies := by
  induction l generalizing st with
  | nil => cases hs
  | cons x xs ih =>
    rcases List.mem_cons.mp hs with hx | hx
    · subst hx
      refine rdeps_mono_run xs ?_
      rw [populateDeps_alias st h]
      exact mem_addSet_self _ _
    · exact ih _ hx

/-- C7: every import specifier beginning with the reserved
internal-alias `@/` contributes exactly its final path segment to the
registry-dependency set — whatever the number of intermediate segments —
and a specifier that is neither a table key nor alias-prefixed
contributes to neither set. -/
theorem spec_C7_internal_alias_classification
    (P : Parser) (fn src s u : String) :
    (jsStartsWith s REGISTRY_DEPENDENCY = true →
      (∀ st : DepState, populateDeps st s =
        { st with registryDependencies := addSet st.registryDependencies (lastSeg s) }) ∧
      (s ∈ importsOf P fn src →
        lastSeg s ∈ (getFileDependencies P fn src).registryDependencies)) ∧
    (lookupPeers u = none → jsStartsWith u REGISTRY_DEPENDENCY = false →
      ∀ st : DepState, populateDeps st u = st) := by
  refine ⟨fun h => ⟨fun st => populateDeps_alias st h, fun hmem => ?_⟩,
    fun h1 h2 st => populateDeps_ignored st h1 h2⟩
  simp only [getFileDependencies]
  exact run_alias_hit _ hmem h

theorem spec_C7_internal_alias_classification_witness :
    "bar" ∈ (getFileDependencies (constParser wImports) "a.ts" "x").registryDependencies ∧
    populateDeps ⟨[], []⟩ "vue" = ⟨[], []⟩ := by
  have h := spec_C7_internal_alias_classification (constParser wImports) "a.ts" "x"
    "@/components/ui/bar" "vue"
  refine ⟨?_, h.2 (by decide) (by decide) ⟨[], []⟩⟩
  have h2 := (h.1 (by decide)).2 (by decide)
  rw [show lastSeg "@/components/ui/bar" = "bar" from by decide] at h2
  exact h2

/-! ## Block metadata lemmas -/

theorem objGet_objSet_same (m : JSObj) (k : String) (v : JSVal) :
    objGet (objSet m k v) k = some v := by
  induction m with
  | nil => simp [objSet, objGet, List.find?]
  | cons p rest ih =>
    unfold objSet
    cases hp : p.1 == k with
    | true => simp [objGet, List.find?]
    | false =>
      simp only [objGet, List.find?, hp] at ih ⊢
      exact ih

theorem objGet_objSet_other (m : JSObj) {k k' : String} (v : JSVal)
    (h : k' ≠ k) : objGet (objSet m k v) k' = objGet m k' := by
  have hkk : (k == k') = false := beq_eq_false_iff_ne.mpr (Ne.symm h)
  induction m with
  | nil => simp [objSet, objGet, List.find?, hkk]
  | cons p rest ih =>
    unfold objSet
    cases hp : p.1 == k with
    | true =>
      have hp1 : p.1 = k := beq_iff_eq.mp hp
      have hpk : (p.1 == k') = false := by rw [hp1]; exact hkk
      simp [objGet, List.find?, hkk, hpk]
    | false =>
      simp only [objGet, List.find?]
      cases hp' : p.1 == k' with
      | true => rfl
      | false =>
        simp only [objGet, List.find?] at ih
        exact ih

theorem foldl_declUpd_override (ds : List Declarator) (k : String)
    (acc : Option (Option InitExpr)) :
    ds.foldl (declUpd k) acc =
      match ds.foldl (declUpd k) none with
      | some i => some i
      | none => acc := by
  induction ds generalizing acc with
  | nil => rfl
  | cons d ds ih =>
    simp only [List.foldl_cons]
    rw [ih (declUpd k acc d), ih (declUpd k none d)]
    cases hres : ds.foldl (declUpd k) none with
    | some i => rfl
    | none => cases hd : d.dname == k <;> simp [declUpd, hd]

theorem objGet_foldl_applyDecl (ds : List Declarator) (m : JSObj) (k : String) :
    objGet (ds.foldl applyDecl m) k =
      match ds.foldl (declUpd k) none with
      | some i => some (initValue i)
      | none => objGet m k := by
  induction ds generalizing m with
  | nil => rfl
  | cons d ds ih =>
    simp only [List.foldl_cons]
    rw [ih (applyDecl m d), foldl_declUpd_override ds k (declUpd k none d)]
    cases hrest : ds.foldl (declUpd k) none with
    | some i => rfl
    | none =>
      unfold declUpd applyDecl
      cases hd : d.dname == k with
      | true =>
        simp only [beq_iff_eq] at hd
        subst hd
        simp [objGet_objSet_same]
      | false =>
        have hd' : d.dname ≠ k := by simpa using hd
        simp [objGet_objSet_other m (initValue d.init) (Ne.symm hd')]

theorem foldl_stmtUpd_override (stmts : List Stmt) (k : String)
    (acc : Option (Option InitExpr)) :
    stmts.foldl (stmtUpd k) acc =
      match stmts.foldl (stmtUpd k) none with
      | some i => some i
      | none => acc := by
  induction stmts generalizing acc with
  | nil => rfl
  | cons s stmts ih =>
    simp only [List.foldl_cons]
    rw [ih (stmtUpd k acc s), ih (stmtUpd k none s)]
    cases hrest : stmts.foldl (stmtUpd k) none with
    | some i => rfl
    | none =>
      cases s with
      | otherStmt => rfl
      | exportVarDecl ds =>
        simp only [stmtUpd]
        rw [foldl_declUpd_override ds k acc]

theorem objGet_walkMetadata (stmts : List Stmt) (m : JSObj) (k : String) :
    objGet (walkMetadata stmts m) k =
      match lastAssign stmts k with
      | some i => some (initValue i)
      | none => objGet m k := by
  induction stmts generalizing m with
  | nil => rfl
  | cons s stmts ih =>
    simp only [walkMetadata, List.foldl_cons] at ih ⊢
    rw [ih, show lastAssign (s :: stmts) k = stmts.foldl (stmtUpd k) (stmtUpd k none s)
      from rfl, foldl_stmtUpd_override stmts k (stmtUpd k none s),
      show lastAssign stmts k = stmts.foldl (stmtUpd k) none from rfl]
    cases hrest : stmts.foldl (stmtUpd k) none with
    | some i => rfl
    | none =>
      cases s with
      | otherStmt => rfl
      | exportVarDecl ds =>
        simp only [stmtUpd]
        rw [objGet_foldl_applyDecl ds m k]

/-- C5 (amended): on a composite file with a truthy plain script block,
the metadata result reads, under any property name `k`, as the value of
the *last* top-level exported declarator named `k` — the initializer's
literal value, `null` when the initializer is absent, and `undefined`
when it is present but not a literal — and, when no declarator is named
`k`, as the initial object (`null` under the three known field names,
absent otherwise).  In particular every exported declared name is
assigned into the object: unknown names add extra own properties rather
than being ignored. -/
theorem spec_C5_block_metadata_assignment
    (P : Parser) (fn src k c : String)
    (hvue : jsEndsWith fn ".vue" = true)
    (hscript : P.sfcScript src = some c) (hc : c ≠ "") :
    objGet (getBlockMetadata P fn src) k =
      match lastAssign (P.sfcAst src) k with
      | some i => some (initValue i)
      | none => objGet initialMetadata k := by
  unfold getBlockMetadata
  rw [hscript]
  simp only [hvue, truthyOpt, decide_eq_true_eq, if_true]
  rw [if_pos hc]
  exact objGet_walkMetadata (P.sfcAst src) initialMetadata k

/-- C5 counterexample: with a script exporting `foo = 'x'` and
`description = <non-literal>`, the result has four own properties (not
exactly three), the unknown name `foo` is not ignored, and the
non-literal initializer yields `undefined`, not `null`. -/
theorem spec_C5_block_metadata_assignment_cex :
    (getBlockMetadata metaCexParser "b.vue" "s").length = 4 ∧
    objGet (getBlockMetadata metaCexParser "b.vue" "s") "foo" = some (JSVal.str "x") ∧
    objGet (getBlockMetadata metaCexParser "b.vue" "s") "description" = some JSVal.undefined := by
  decide

theorem spec_C5_block_metadata_assignment_witness :
    objGet (getBlockMetadata metaCexParser "b.vue" "s") "iframeHeight" = some JSVal.null := by
  have h := spec_C5_block_metadata_assignment metaCexParser "b.vue" "s" "iframeHeight" "s"
    (by decide) rfl (by decide)
  rw [h]
  decide

/-- C10: for a composite file whose only script section is a setup
script (no plain script block), the extractor returns all three metadata
fields as `null`, whatever the setup script exports: only a plain script
section is inspected. -/
theorem spec_C10_setup_only_metadata_null
    (P : Parser) (fn src : String)
    (hvue : jsEndsWith fn ".vue" = true)
    (hscript : P.sfcScript src = none) :
    getBlockMetadata P fn src = initialMetadata := by
  unfold getBlockMetadata
  rw [hvue, hscript]
  rfl

theorem spec_C10_setup_only_metadata_null_witness :
    getBlockMetadata setupOnlyParser "b.vue" "src" = initialMetadata :=
  spec_C10_setup_only_metadata_null setupOnlyParser "b.vue" "src" (by decide) rfl

/-! ## Installer lemmas -/

theorem mapGet_mapSet_same (m : List (String × Bool)) (k : String) (v : Bool) :
    mapGet (mapSet m k v) k = some v := by
  induction m with
  | nil => simp [mapSet, mapGet, List.find?]
  | cons p rest ih =>
    unfold mapSet
    cases hp : p.1 == k with
    | true => simp [mapGet, List.find?]
    | false =>
      simp only [mapGet, List.find?, hp] at ih ⊢
      exact ih

theorem mapGet_mapSet_other (m : List (String × Bool)) {k n : String} (v : Bool)
    (h : n ≠ k) : mapGet (mapSet m k v) n = mapGet m n := by
  have hkk : (k == n) = false := beq_eq_false_iff_ne.mpr (Ne.symm h)
  induction m with
  | nil => simp [mapSet, mapGet, List.find?, hkk]
  | cons p rest ih =>
    unfold mapSet
    cases hp : p.1 == k with
    | true =>
      have hp1 : p.1 = k := beq_iff_eq.mp hp
      have hpk : (p.1 == n) = false := by rw [hp1]; exact hkk
      simp [mapGet, List.find?, hkk, hpk]
    | false =>
      simp only [mapGet, List.find?]
      cases hp' : p.1 == n with
      | true => rfl
      | false =>
        simp only [mapGet, List.find?] at ih
        exact ih

theorem processFile_empty_content (env : Env) (st : IState) {f : RegFile}
    (h : f.content = "") : processFile env st f = st := by
  simp [processFile, h]

theorem foldl_processFile_all_empty (env : Env) (files : List RegFile) :
    ∀ st : IState, (∀ f ∈ files, f.content = "") →
      files.foldl (processFile env) st = st := by
  induction files with
  | nil => intro st _; rfl
  | cons f fs ih =>
    intro st hall
    simp only [List.foldl_cons]
    rw [processFile_empty_content env st (hall f (by simp))]
    exact ih st (fun g hg => hall g (by simp [hg]))

/-- C4 (amended): a target beginning with the home/alias marker `~/`
resolves to the project root joined with the remainder; a bare relative
target *also* resolves against the project root — not the project's
source root, whose branch is commented out in the source; a file without
a target gets the per-component convention directory plus the file's
basename (before the untyped-project extension substitution). -/
theorem spec_C4_target_resolution
    (pInfo : ProjectInfo) (cfg : Config) (t : String) (env : Env) (f : RegFile) :
    (jsStartsWith t "~/" = true →
      resolveTargetDir pInfo cfg t = pjoin cfg.cwd (String.mk (t.data.drop 2))) ∧
    (jsStartsWith t "~/" = false →
      resolveTargetDir pInfo cfg t = pjoin cfg.cwd t) ∧
    (f.target = "" → env.config.typescript = true →
      filePathOf env f = pjoin (env.config.conventionDir f.ftype) (basename f.path)) := by
  refine ⟨fun h => ?_, fun h => ?_, fun h1 h2 => ?_⟩
  · simp [resolveTargetDir, h]
  · simp [resolveTargetDir, h]
  · simp [filePathOf, rawFilePathOf, h1, h2]

/-- C4 counterexample: with project root `/p`, the bare relative target
`pages/dashboard/index.vue` resolves to `/p/pages/dashboard/index.vue`,
which does not lie under the project's source root `/p/src/` — refuting
the claim that bare targets resolve under the source root. -/
theorem spec_C4_target_resolution_cex :
    resolveTargetDir ⟨true⟩ cfg0 "pages/dashboard/index.vue" =
      "/p/pages/dashboard/index.vue" ∧
    jsStartsWith (resolveTargetDir ⟨true⟩ cfg0 "pages/dashboard/index.vue")
      "/p/src/" = false := by
  decide

theorem spec_C4_target_resolution_witness :
    resolveTargetDir ⟨false⟩ cfg0 "~/lib/utils.ts" = "/p/lib/utils.ts" ∧
    resolveTargetDir ⟨false⟩ cfg0 "pages/a.vue" = "/p/pages/a.vue" ∧
    filePathOf envDecline ⟨"ui/btn/btn.vue", "c", "", "registry:ui"⟩ =
      "/p/components/ui/btn.vue" := by
  have h1 := spec_C4_target_resolution ⟨false⟩ cfg0 "~/lib/utils.ts" envDecline
    ⟨"ui/btn/btn.vue", "c", "", "registry:ui"⟩
  have h2 := spec_C4_target_resolution ⟨false⟩ cfg0 "pages/a.vue" envDecline
    ⟨"ui/btn/btn.vue", "c", "", "registry:ui"⟩
  refine ⟨?_, ?_, ?_⟩
  · rw [h1.1 (by decide)]; decide
  · rw [h2.2.1 (by decide)]; decide
  · rw [h1.2.2 rfl rfl]; decide

/-- C9 (amended): when the input list is nonempty, the neutral
`'No files updated.'` signal is emitted exactly when the created+updated
total and the skipped total are both zero — in particular when every
input file has empty content.  An *empty* input list hits the
`!files?.length` early return and emits nothing. -/
theorem spec_C9_no_files_signal (env : Env) (fs0 : FSModel) (files : List RegFile)
    (h : files ≠ []) :
    ((updateFiles env fs0 files).noFilesSignal = true ↔
      (updateFiles env fs0 files).state.filesCreated.length +
        (updateFiles env fs0 files).state.filesUpdated.length = 0 ∧
      (updateFiles env fs0 files).state.filesSkipped.length = 0) ∧
    ((∀ f ∈ files, f.content = "") →
      (updateFiles env fs0 files).noFilesSignal = true) := by
  have hne : files.isEmpty = false := by
    cases files with
    | nil => exact absurd rfl h
    | cons a l => rfl
  constructor
  · simp [updateFiles, hne, List.isEmpty_iff, List.length_eq_zero, Nat.add_eq_zero]
  · intro hall
    have hfold := foldl_processFile_all_empty env files (initState fs0) hall
    unfold updateFiles
    rw [hne]
    simp only [Bool.false_eq_true, if_false]
    rw [hfold]
    rfl

/-- C9 counterexample: for the empty input list both totals are zero,
yet the neutral signal is not emitted — the `!files?.length` guard
returns before any reporting. -/
theorem spec_C9_no_files_signal_cex :
    (updateFiles envDecline fsBtn []).noFilesSignal = false ∧
    (updateFiles envDecline fsBtn []).state.filesCreated.length +
      (updateFiles envDecline fsBtn []).state.filesUpdated.length = 0 ∧
    (updateFiles envDecline fsBtn []).state.filesSkipped.length = 0 := by
  decide

theorem spec_C9_no_files_signal_witness :
    (updateFiles envDecline fsBtn [⟨"a.vue", "", "", "registry:example"⟩]).noFilesSignal
      = true :=
  (spec_C9_no_files_signal envDecline fsBtn [⟨"a.vue", "", "", "registry:example"⟩]
    (by decide)).2 (by decide)

/-- C8: with `overwrite: true`, a non-UI file whose destination exists
is written without any prompt and classified as updated; with overwrite
absent/false, an existing destination triggers one per-file prompt, and
a declined prompt records the file as skipped and changes nothing else
(in particular nothing is written). -/
theorem spec_C8_non_ui_overwrite
    (env : Env) (st : IState) (f : RegFile)
    (hty : f.ftype ≠ "registry:ui") (hc : f.content ≠ "")
    (hex : existsSyncB st.fs (filePathOf env f) = true) :
    (env.options.overwrite = true →
      processFile env st f =
        writeStep env st f (filePathOf env f) (targetDirOf env f) true ∧
      (processFile env st f).trace =
        st.trace ++ [Ev.wrote f.ftype f.path (filePathOf env f)] ∧
      (processFile env st f).filesUpdated =
        st.filesUpdated ++ [relpath env.config.cwd (filePathOf env f)] ∧
      (processFile env st f).filesSkipped = st.filesSkipped) ∧
    (env.options.overwrite = false →
      (processFile env st f).trace =
        st.trace ++ [Ev.filePrompt (basename f.path) (env.answerFile (basename f.path))] ++
          (if env.answerFile (basename f.path) then
            [Ev.wrote f.ftype f.path (filePathOf env f)] else []) ∧
      (env.answerFile (basename f.path) = false →
        processFile env st f =
          { st with
            trace := st.trace ++ [Ev.filePrompt (basename f.path) false],
            filesSkipped :=
              st.filesSkipped ++ [relpath env.config.cwd (filePathOf env f)] })) := by
  constructor
  · intro hov
    have hproc : processFile env st f =
        writeStep env st f (filePathOf env f) (targetDirOf env f) true := by
      simp only [processFile]
      rw [if_neg hc, if_neg hty, hex, hov]
      simp
    refine ⟨hproc, ?_, ?_, ?_⟩ <;> rw [hproc] <;> simp [writeStep]
  · intro hov
    simp only [processFile]
    rw [if_neg hc, if_neg hty, hex, hov]
    simp only [Bool.not_false, Bool.and_self, if_true]
    constructor
    · cases hans : env.answerFile (basename f.path) with
      | true => simp [hans, writeStep, List.append_assoc]
      | false => simp [hans]
    · intro hans
      simp [hans]

theorem existsSyncB_of_dir {fs : FSModel} {p : String} (h : p ∈ fs.dirs) :
    existsSyncB fs p = true := by
  simp [existsSyncB, h]

/-- `processFile` on a UI file with content, written as the explicit
branch of the source's lines 84-108. -/
theorem processFile_ui_eq (env : Env) (st : IState) (f : RegFile)
    (hui : f.ftype = "registry:ui") (hc : f.content ≠ "") :
    processFile env st f =
      (let fp := filePathOf env f
       let fn := folderNameOf env f
       let fsk0 := if existsSyncB st.fs (dirname fp) then st.folderSkipped
                   else mapSet st.folderSkipped fn false
       let doPrompt := (mapGet fsk0 fn).isNone
       let ans := env.answerFolder fn
       let fsk1 := if doPrompt then mapSet fsk0 fn (!ans) else fsk0
       let tr1 := if doPrompt then st.trace ++ [Ev.folderPrompt fn ans] else st.trace
       let st1 : IState := { st with folderSkipped := fsk1, trace := tr1 }
       if mapGet fsk1 fn = some true then
         { st1 with filesSkipped := st1.filesSkipped ++ [relpath env.config.cwd fp] }
       else writeStep env st1 f fp (targetDirOf env f) (existsSyncB st.fs fp)) := by
  simp only [processFile, folderNameOf]
  rw [if_neg hc, if_pos hui]

/-- `processFile` on a non-UI file with content, written as the explicit
branch of the source's lines 109-127. -/
theorem processFile_nonui_eq (env : Env) (st : IState) (f : RegFile)
    (hui : f.ftype ≠ "registry:ui") (hc : f.content ≠ "") :
    processFile env st f =
      (let fp := filePathOf env f
       let existingFile := existsSyncB st.fs fp
       if existingFile && !env.options.overwrite then
         let ans := env.answerFile (basename f.path)
         let st1 : IState :=
           { st with trace := st.trace ++ [Ev.filePrompt (basename f.path) ans] }
         if ans then writeStep env st1 f fp (targetDirOf env f) existingFile
         else { st1 with filesSkipped :=
                  st1.filesSkipped ++ [relpath env.config.cwd fp] }
       else writeStep env st f fp (targetDirOf env f) existingFile) := by
  simp only [processFile]
  rw [if_neg hc, if_neg hui]

theorem processFile_mono (env : Env) (st : IState) (g : RegFile) :
    (∀ x ∈ st.filesSkipped, x ∈ (processFile env st g).filesSkipped) ∧
    (∀ e ∈ st.trace, e ∈ (processFile env st g).trace) ∧
    (∀ d ∈ st.fs.dirs, d ∈ (processFile env st g).fs.dirs) := by
  by_cases hc : g.content = ""
  · simp [processFile_empty_content env st hc]
  · by_cases hui : g.ftype = "registry:ui"
    · rw [processFile_ui_eq env st g hui hc]
      refine ⟨fun x hx => ?_, fun e he => ?_, fun d hd => ?_⟩
      · simp only
        split_ifs <;> simp [writeStep, hx]
      · simp only
        split_ifs <;> simp [writeStep, he]
      · simp only
        split_ifs <;> simp only [writeStep] <;> (try split_ifs) <;> simp [hd]
    · rw [processFile_nonui_eq env st g hui hc]
      refine ⟨fun x hx => ?_, fun e he => ?_, fun d hd => ?_⟩
      · simp only
        split_ifs <;> simp [writeStep, hx]
      · simp only
        split_ifs <;> simp [writeStep, he]
      · simp only
        split_ifs <;> simp only [writeStep] <;> (try split_ifs) <;> simp [hd]

theorem folderPromptNames_append (a b : List Ev) :
    folderPromptNames (a ++ b) = folderPromptNames a ++ folderPromptNames b := by
  simp [folderPromptNames, List.filterMap_append]

/-- A UI file whose folder decision is cached as "skip" (or about to be
declined) is recorded as skipped and nothing else changes: the exact
state produced by lines 84-107 when the folder exists and the cached or
prompted answer is negative. -/
theorem processFile_ui_decline (env : Env) (st : IState) (f : RegFile)
    (hui : f.ftype = "registry:ui") (hc : f.content ≠ "")
    (hdir : dirname (filePathOf env f) ∈ st.fs.dirs)
    (hans : env.answerFolder (folderNameOf env f) = false)
    (hmap : mapGet st.folderSkipped (folderNameOf env f) = none ∨
            mapGet st.folderSkipped (folderNameOf env f) = some true) :
    processFile env st f =
      { st with
        folderSkipped :=
          if mapGet st.folderSkipped (folderNameOf env f) = none then
            mapSet st.folderSkipped (folderNameOf env f) true
          else st.folderSkipped,
        trace :=
          if mapGet st.folderSkipped (folderNameOf env f) = none then
            st.trace ++ [Ev.folderPrompt (folderNameOf env f) false]
          else st.trace,
        filesSkipped :=
          st.filesSkipped ++ [relpath env.config.cwd (filePathOf env f)] } := by
  rw [processFile_ui_eq env st f hui hc]
  simp only
  rw [if_pos (existsSyncB_of_dir hdir)]
  rcases hmap with hm | hm
  · rw [hans, hm]
    simp [mapGet_mapSet_same]
  · rw [hm]
    simp [hm]

/-- A UI step can change the conflict cache only at its own folder
name. -/
theorem processFile_ui_mapGet_other (env : Env) (st : IState) (f : RegFile)
    (hui : f.ftype = "registry:ui") (hc : f.content ≠ "") {n : String}
    (hn : n ≠ folderNameOf env f) :
    mapGet (processFile env st f).folderSkipped n = mapGet st.folderSkipped n := by
  rw [processFile_ui_eq env st f hui hc]
  simp only
  split_ifs <;> simp [writeStep, mapGet_mapSet_other _ _ hn]

/-- After a UI step, the cache entry at the step's own folder name is
unchanged, set to `false` (folder reset), or set to the negated prompt
answer. -/
theorem processFile_ui_mapGet_own (env : Env) (st : IState) (f : RegFile)
    (hui : f.ftype = "registry:ui") (hc : f.content ≠ "") :
    mapGet (processFile env st f).folderSkipped (folderNameOf env f) =
      mapGet st.folderSkipped (folderNameOf env f) ∨
    mapGet (processFile env st f).folderSkipped (folderNameOf env f) = some false ∨
    mapGet (processFile env st f).folderSkipped (folderNameOf env f) =
      some (!env.answerFolder (folderNameOf env f)) := by
  rw [processFile_ui_eq env st f hui hc]
  simp only
  split_ifs <;> simp [writeStep, mapGet_mapSet_same]

/-- A non-UI step never touches the folder-conflict cache. -/
theorem processFile_nonui_folderSkipped (env : Env) (st : IState) (f : RegFile)
    (hui : f.ftype ≠ "registry:ui") :
    (processFile env st f).folderSkipped = st.folderSkipped := by
  by_cases hc : f.content = ""
  · rw [processFile_empty_content env st hc]
  · rw [processFile_nonui_eq env st f hui hc]
    simp only
    split_ifs <;> simp [writeStep]

/-- The trace extension of a UI step: at most one folder prompt (only
when the folder name was uncached) followed by at most one UI write. -/
theorem processFile_ui_trace (env : Env) (st : IState) (f : RegFile)
    (hui : f.ftype = "registry:ui") (hc : f.content ≠ "") :
    ∃ p w : Bool,
      (processFile env st f).trace =
        st.trace ++
          (if p then [Ev.folderPrompt (folderNameOf env f)
              (env.answerFolder (folderNameOf env f))] else []) ++
          (if w then [Ev.wrote "registry:ui" f.path (filePathOf env f)] else []) ∧
      (p = true → mapGet st.folderSkipped (folderNameOf env f) = none) ∧
      (p = true → mapGet (processFile env st f).folderSkipped (folderNameOf env f) =
        some (!env.answerFolder (folderNameOf env f))) := by
  rw [processFile_ui_eq env st f hui hc]
  simp only
  split_ifs with h1 h2 h3 h4 h5 h6 h7
  · exact ⟨true, false, by simp, fun _ => Option.isNone_iff_eq_none.mp h2,
      fun _ => by simp [mapGet_mapSet_same]⟩
  · exact ⟨true, true, by simp [writeStep, hui, List.append_assoc],
      fun _ => Option.isNone_iff_eq_none.mp h2,
      fun _ => by simp [writeStep, mapGet_mapSet_same]⟩
  · exact ⟨false, false, by simp, by simp, by simp⟩
  · exact ⟨false, true, by simp [writeStep, hui], by simp, by simp⟩
  · exact absurd h5 (by simp [mapGet_mapSet_same])
  · exact absurd h5 (by simp [mapGet_mapSet_same])
  · exact absurd h7 (by simp [mapGet_mapSet_same])
  · exact ⟨false, true, by simp [writeStep, hui], by simp, by simp⟩

/-- The trace extension of a non-UI step: at most one file prompt and at
most one write, the write carrying the file's own (non-UI) type. -/
theorem processFile_nonui_trace (env : Env) (st : IState) (f : RegFile)
    (hui : f.ftype ≠ "registry:ui") (hc : f.content ≠ "") :
    ∃ p w : Bool,
      (processFile env st f).trace =
        st.trace ++
          (if p then [Ev.filePrompt (basename f.path)
              (env.answerFile (basename f.path))] else []) ++
          (if w then [Ev.wrote f.ftype f.path (filePathOf env f)] else []) := by
  rw [processFile_nonui_eq env st f hui hc]
  simp only
  split_ifs with h1 h2
  · exact ⟨true, true, by simp [writeStep, List.append_assoc]⟩
  · exact ⟨true, false, by simp⟩
  · exact ⟨false, true, by simp [writeStep]⟩

/-- Preservation of "this folder name was never answered skip": with an
accepting confirm boundary for `F`, no step can cache `F` as skip. -/
theorem step_consent (env : Env) (F : String) (st : IState) (g : RegFile)
    (hans : env.answerFolder F = true)
    (h : mapGet st.folderSkipped F ≠ some true) :
    mapGet (processFile env st g).folderSkipped F ≠ some true := by
  by_cases hc : g.content = ""
  · rw [processFile_empty_content env st hc]; exact h
  · by_cases hui : g.ftype = "registry:ui"
    · by_cases hF : F = folderNameOf env g
      · subst hF
        rcases processFile_ui_mapGet_own env st g hui hc with h' | h' | h'
        · rw [h']; exact h
        · rw [h']; simp
        · rw [h', hans]; simp
      · rw [processFile_ui_mapGet_other env st g hui hc hF]
        exact h
    · rw [processFile_nonui_folderSkipped env st g hui]; exact h

/-- With an accepting confirm boundary for its folder and no cached
skip, a UI step always performs its write. -/
theorem step_consent_write (env : Env) (st : IState) (f : RegFile)
    (hui : f.ftype = "registry:ui") (hc : f.content ≠ "")
    (hmap : mapGet st.folderSkipped (folderNameOf env f) ≠ some true)
    (hans : env.answerFolder (folderNameOf env f) = true) :
    Ev.wrote "registry:ui" f.path (filePathOf env f) ∈ (processFile env st f).trace := by
  rw [processFile_ui_eq env st f hui hc]
  simp only
  by_cases hA : existsSyncB st.fs (dirname (filePathOf env f)) = true
  · rw [if_pos hA]
    by_cases hB : mapGet st.folderSkipped (folderNameOf env f) = none
    · rw [hB, hans]
      simp [mapGet_mapSet_same, writeStep, hui]
    · have hx : (mapGet st.folderSkipped (folderNameOf env f)).isNone = false := by
        cases hy : mapGet st.folderSkipped (folderNameOf env f) with
        | none => exact absurd hy hB
        | some b => rfl
      rw [hx]
      simp only [Bool.false_eq_true, if_false]
      rw [if_neg hmap]
      simp [writeStep, hui]
  · rw [if_neg hA]
    have hx : (mapGet (mapSet st.folderSkipped (folderNameOf env f) false)
        (folderNameOf env f)).isNone = false := by
      rw [mapGet_mapSet_same]
      rfl
    rw [hx]
    simp only [Bool.false_eq_true, if_false]
    rw [if_neg (by rw [mapGet_mapSet_same]; simp)]
    simp [writeStep, hui]

/-- Preservation of the decline invariant for folder name `F`: the cache
entry stays `none` or skip, and no UI write into a folder named `F`
enters the trace — provided any UI file destined to `F` sees its
destination directory existing. -/
theorem step_decline_inv (env : Env) (F : String) (st : IState) (g : RegFile)
    (hans : env.answerFolder F = false)
    (hdirg : g.ftype = "registry:ui" → g.content ≠ "" → folderNameOf env g = F →
       dirname (filePathOf env g) ∈ st.fs.dirs)
    (hmap : mapGet st.folderSkipped F = none ∨ mapGet st.folderSkipped F = some true)
    (htr : ∀ sp dest, basename (dirname dest) = F →
       Ev.wrote "registry:ui" sp dest ∉ st.trace) :
    (mapGet (processFile env st g).folderSkipped F = none ∨
     mapGet (processFile env st g).folderSkipped F = some true) ∧
    ∀ sp dest, basename (dirname dest) = F →
      Ev.wrote "registry:ui" sp dest ∉ (processFile env st g).trace := by
  by_cases hc : g.content = ""
  · rw [processFile_empty_content env st hc]; exact ⟨hmap, htr⟩
  · by_cases hui : g.ftype = "registry:ui"
    · by_cases hF : folderNameOf env g = F
      · have hd := hdirg hui hc hF
        have hge := processFile_ui_decline env st g hui hc hd
          (by rw [hF]; exact hans) (by rw [hF]; exact hmap)
        rw [hge]
        constructor
        · simp only
          split_ifs with h0
          · right
            rw [← hF]
            exact mapGet_mapSet_same _ _ _
          · rw [← hF] at hmap
            rcases hmap with hmap | hmap
            · exact absurd (hF ▸ hmap) (hF ▸ h0)
            · right; rw [← hF]; exact hmap
        · intro sp dest hdest
          simp only
          split_ifs with h0
          · simp only [List.mem_append]
            rintro (h | h)
            · exact htr sp dest hdest h
            · simp at h
          · exact htr sp dest hdest
      · constructor
        · rw [processFile_ui_mapGet_other env st g hui hc (fun he => hF he.symm)]
          exact hmap
        · intro sp dest hdest
          rcases processFile_ui_trace env st g hui hc with ⟨p, w, htrace, _, _⟩
          rw [htrace]
          simp only [List.mem_append]
          rintro ((h | h) | h)
          · exact htr sp dest hdest h
          · cases p <;> simp at h
          · cases w with
            | false => simp at h
            | true =>
              simp at h
              have hde : dest = filePathOf env g := by tauto
              rw [hde] at hdest
              exact absurd hdest hF
    · constructor
      · rw [processFile_nonui_folderSkipped env st g hui]; exact hmap
      · intro sp dest hdest
        rcases processFile_nonui_trace env st g hui hc with ⟨p, w, htrace⟩
        rw [htrace]
        simp only [List.mem_append]
        rintro ((h | h) | h)
        · exact htr sp dest hdest h
        · cases p <;> simp at h
        · cases w with
          | false => simp at h
          | true =>
            simp at h
            have hty : ("registry:ui" : String) = g.ftype := by tauto
            exact hui hty.symm

/-- Preservation of the prompt-uniqueness invariant: folder-prompt names
stay distinct and every prompted name has a cache entry. -/
theorem step_nodup (env : Env) (st : IState) (g : RegFile)
    (h1 : (folderPromptNames st.trace).Nodup)
    (h2 : ∀ n ∈ folderPromptNames st.trace, mapGet st.folderSkipped n ≠ none) :
    (folderPromptNames (processFile env st g).trace).Nodup ∧
    ∀ n ∈ folderPromptNames (processFile env st g).trace,
      mapGet (processFile env st g).folderSkipped n ≠ none := by
  by_cases hc : g.content = ""
  · rw [processFile_empty_content env st hc]; exact ⟨h1, h2⟩
  · by_cases hui : g.ftype = "registry:ui"
    · rcases processFile_ui_trace env st g hui hc with ⟨p, w, htrace, hpre, hpost⟩
      have hfpn : folderPromptNames (processFile env st g).trace =
          folderPromptNames st.trace ++ (if p then [folderNameOf env g] else []) := by
        rw [htrace, folderPromptNames_append, folderPromptNames_append]
        cases p <;> cases w <;> simp [folderPromptNames]
      constructor
      · rw [hfpn]
        cases p with
        | false => simpa using h1
        | true =>
          have hnotin : folderNameOf env g ∉ folderPromptNames st.trace :=
            fun hin => (h2 _ hin) (hpre rfl)
          simp [List.nodup_append, h1, hnotin]
      · intro n hn
        rw [hfpn] at hn
        simp only [List.mem_append] at hn
        by_cases hnf : n = folderNameOf env g
        · subst hnf
          cases p with
          | true => rw [hpost rfl]; simp
          | false =>
            have hold : folderNameOf env g ∈ folderPromptNames st.trace := by
              rcases hn with hn | hn
              · exact hn
              · simp at hn
            rcases processFile_ui_mapGet_own env st g hui hc with h' | h' | h' <;>
              rw [h'] <;> simp_all
        · rw [processFile_ui_mapGet_other env st g hui hc hnf]
          have hold : n ∈ folderPromptNames st.trace := by
            rcases hn with hn | hn
            · exact hn
            · cases p with
              | false => simp at hn
              | true =>
                simp at hn
                exact absurd hn hnf
          exact h2 n hold
    · have hmap := processFile_nonui_folderSkipped env st g hui
      rcases processFile_nonui_trace env st g hui hc with ⟨p, w, htrace⟩
      have hfpn : folderPromptNames (processFile env st g).trace =
          folderPromptNames st.trace := by
        rw [htrace, folderPromptNames_append, folderPromptNames_append]
        cases p <;> cases w <;> simp [folderPromptNames]
      rw [hfpn, hmap]
      exact ⟨h1, h2⟩

theorem run_mono (env : Env) (files : List RegFile) : ∀ st : IState,
    (∀ x ∈ st.filesSkipped, x ∈ (files.foldl (processFile env) st).filesSkipped) ∧
    (∀ e ∈ st.trace, e ∈ (files.foldl (processFile env) st).trace) ∧
    (∀ d ∈ st.fs.dirs, d ∈ (files.foldl (processFile env) st).fs.dirs) := by
  induction files with
  | nil => exact fun st => ⟨fun x hx => hx, fun e he => he, fun d hd => hd⟩
  | cons g gs ih =>
    intro st
    refine ⟨fun x hx => ?_, fun e he => ?_, fun d hd => ?_⟩ <;>
      simp only [List.foldl_cons]
    · exact (ih (processFile env st g)).1 x ((processFile_mono env st g).1 x hx)
    · exact (ih (processFile env st g)).2.1 e ((processFile_mono env st g).2.1 e he)
    · exact (ih (processFile env st g)).2.2 d ((processFile_mono env st g).2.2 d hd)

theorem run_nodup (env : Env) (files : List RegFile) : ∀ st : IState,
    (folderPromptNames st.trace).Nodup →
    (∀ n ∈ folderPromptNames st.trace, mapGet st.folderSkipped n ≠ none) →
    (folderPromptNames (files.foldl (processFile env) st).trace).Nodup := by
  induction files with
  | nil => intro st h1 _; simpa using h1
  | cons g gs ih =>
    intro st h1 h2
    simp only [List.foldl_cons]
    have hs := step_nodup env st g h1 h2
    exact ih (processFile env st g) hs.1 hs.2

theorem run_consent (env : Env) (F : String) (files : List RegFile)
    (hans : env.answerFolder F = true) : ∀ st : IState,
    mapGet st.folderSkipped F ≠ some true →
    ∀ f ∈ files, f.ftype = "registry:ui" → f.content ≠ "" → folderNameOf env f = F →
      Ev.wrote "registry:ui" f.path (filePathOf env f) ∈
        (files.foldl (processFile env) st).trace := by
  induction files with
  | nil =>
    intro st _ f hf
    cases hf
  | cons g gs ih =>
    intro st hmap f hf hfui hfc hfF
    simp only [List.foldl_cons]
    rcases List.mem_cons.mp hf with hf | hf
    · subst hf
      have hw := step_consent_write env st f hfui hfc (by rw [hfF]; exact hmap)
        (by rw [hfF]; exact hans)
      exact (run_mono env gs (processFile env st f)).2.1 _ hw
    · exact ih (processFile env st g) (step_consent env F st g hans hmap) f hf hfui hfc hfF

theorem run_decline (env : Env) (F : String) (files : List RegFile)
    (hans : env.answerFolder F = false) (D : List String) : ∀ st : IState,
    (∀ d ∈ D, d ∈ st.fs.dirs) →
    (∀ g ∈ files, g.ftype = "registry:ui" → g.content ≠ "" → folderNameOf env g = F →
       dirname (filePathOf env g) ∈ D) →
    (mapGet st.folderSkipped F = none ∨ mapGet st.folderSkipped F = some true) →
    (∀ sp dest, basename (dirname dest) = F →
       Ev.wrote "registry:ui" sp dest ∉ st.trace) →
    (∀ f ∈ files, f.ftype = "registry:ui" → f.content ≠ "" → folderNameOf env f = F →
       relpath env.config.cwd (filePathOf env f) ∈
         (files.foldl (processFile env) st).filesSkipped) ∧
    (∀ sp dest, basename (dirname dest) = F →
       Ev.wrote "registry:ui" sp dest ∉ (files.foldl (processFile env) st).trace) := by
  induction files with
  | nil =>
    intro st _ _ _ htr
    exact ⟨fun f hf => absurd hf (List.not_mem_nil f), htr⟩
  | cons g gs ih =>
    intro st hD hdest hmap htr
    simp only [List.foldl_cons]
    have hdirg : g.ftype = "registry:ui" → g.content ≠ "" → folderNameOf env g = F →
        dirname (filePathOf env g) ∈ st.fs.dirs :=
      fun a b c => hD _ (hdest g (by simp) a b c)
    have hstep := step_decline_inv env F st g hans hdirg hmap htr
    have hD' : ∀ d ∈ D, d ∈ (processFile env st g).fs.dirs :=
      fun d hd => (processFile_mono env st g).2.2 d (hD d hd)
    have hrest := ih (processFile env st g) hD'
      (fun x hx a b c => hdest x (by simp [hx]) a b c) hstep.1 hstep.2
    refine ⟨?_, hrest.2⟩
    intro f hf hfui hfc hfF
    rcases List.mem_cons.mp hf with hf | hf
    · subst hf
      have hd := hdirg hfui hfc hfF
      have hge := processFile_ui_decline env st f hfui hfc hd
        (by rw [hfF]; exact hans) (by rw [hfF]; exact hmap)
      have hmem : relpath env.config.cwd (filePathOf env f) ∈
          (processFile env st f).filesSkipped := by
        rw [hge]
        simp
      exact (run_mono env gs (processFile env st f)).1 _ hmem
    · exact hrest.1 f hf hfui hfc hfF

/-- C1 (amended): during install, (i) the folder-confirmation prompt for
UI files is issued at most once per distinct folder name,
unconditionally; (ii) if the confirm boundary accepts folder name `F`,
every UI file with non-empty content destined to `F` is written; (iii)
if it declines `F` *and* every UI file destined to `F` has its
destination directory already present in the initial filesystem, then
every such file is recorded in the skipped list and no UI write into any
folder named `F` is ever performed.  (Without the proviso of (iii), a
later UI file aimed at a same-named but not-yet-existing directory
resets the cached decision to overwrite — see the counterexample.) -/
theorem spec_C1_folder_conflict_policy
    (env : Env) (fs0 : FSModel) (files : List RegFile) (F : String) :
    (folderPromptNames (updateFiles env fs0 files).state.trace).Nodup ∧
    (env.answerFolder F = true →
      ∀ f ∈ files, f.ftype = "registry:ui" → f.content ≠ "" → folderNameOf env f = F →
        Ev.wrote "registry:ui" f.path (filePathOf env f) ∈
          (updateFiles env fs0 files).state.trace) ∧
    (env.answerFolder F = false →
      (∀ g ∈ files, g.ftype = "registry:ui" → g.content ≠ "" → folderNameOf env g = F →
         dirname (filePathOf env g) ∈ fs0.dirs) →
      (∀ f ∈ files, f.ftype = "registry:ui" → f.content ≠ "" → folderNameOf env f = F →
         relpath env.config.cwd (filePathOf env f) ∈
           (updateFiles env fs0 files).state.filesSkipped) ∧
      (∀ sp dest, basename (dirname dest) = F →
         Ev.wrote "registry:ui" sp dest ∉ (updateFiles env fs0 files).state.trace)) := by
  by_cases hne : files.isEmpty = true
  · have hfe : files = [] := by
      cases files with
      | nil => rfl
      | cons a l => cases hne
    subst hfe
    unfold updateFiles
    simp [initState, folderPromptNames]
  · unfold updateFiles
    rw [if_neg hne]
    simp only
    refine ⟨?_, ?_, ?_⟩
    · exact run_nodup env files (initState fs0)
        (by simp [initState, folderPromptNames]) (by simp [initState, folderPromptNames])
    · intro hans f hf a b c
      exact run_consent env F files hans (initState fs0)
        (by simp [initState, mapGet, List.find?]) f hf a b c
    · intro hans hdirs
      exact run_decline env F files hans fs0.dirs (initState fs0)
        (fun d hd => hd) hdirs (Or.inl (by simp [initState, mapGet, List.find?]))
        (by simp [initState])

/-- C1 counterexample: the folder prompt for name `btn` is declined, yet
`uiFileB` — a UI file destined to a folder named `btn` that does not
exist yet — resets the cached decision and is written (it lands in the
created list, not the skipped list), refuting "a decline skips every
file destined to that folder". -/
theorem spec_C1_folder_conflict_policy_cex :
    Ev.folderPrompt "btn" false ∈
      (updateFiles envDecline fsBtn [uiFileA, uiFileB]).state.trace ∧
    folderNameOf envDecline uiFileB = "btn" ∧
    "y/btn/b.vue" ∈
      (updateFiles envDecline fsBtn [uiFileA, uiFileB]).state.filesCreated ∧
    "y/btn/b.vue" ∉
      (updateFiles envDecline fsBtn [uiFileA, uiFileB]).state.filesSkipped := by
  decide

theorem spec_C1_folder_conflict_policy_witness :
    "x/btn/a.vue" ∈
      (updateFiles envDecline fsBtn [uiFileA, uiFileC]).state.filesSkipped ∧
    "x/btn/c.vue" ∈
      (updateFiles envDecline fsBtn [uiFileA, uiFileC]).state.filesSkipped ∧
    (folderPromptNames
      (updateFiles envDecline fsBtn [uiFileA, uiFileC]).state.trace).Nodup := by
  have h := spec_C1_folder_conflict_policy envDecline fsBtn [uiFileA, uiFileC] "btn"
  have hd := h.2.2 rfl (by decide)
  refine ⟨?_, ?_, h.1⟩
  · have hm := hd.1 uiFileA (by decide) rfl (by decide) (by decide)
    rw [show relpath envDecline.config.cwd (filePathOf envDecline uiFileA) =
      "x/btn/a.vue" from by decide] at hm
    exact hm
  · have hm := hd.1 uiFileC (by decide) rfl (by decide) (by decide)
    rw [show relpath envDecline.config.cwd (filePathOf envDecline uiFileC) =
      "x/btn/c.vue" from by decide] at hm
    exact hm

theorem spec_C8_non_ui_overwrite_witness :
    (processFile envOverwrite (initState fsBtn) exampleFileD).filesUpdated =
      ["x/btn/d.vue"] ∧
    (processFile envOverwrite (initState fsBtn) exampleFileD).trace =
      [Ev.wrote "registry:example" "example/d.vue" "/p/x/btn/d.vue"] ∧
    (processFile envDecline (initState fsBtn) exampleFileD).filesSkipped =
      ["x/btn/d.vue"] := by
  have h1 := spec_C8_non_ui_overwrite envOverwrite (initState fsBtn) exampleFileD
    (by decide) (by decide) (by decide)
  have h2 := spec_C8_non_ui_overwrite envDecline (initState fsBtn) exampleFileD
    (by decide) (by decide) (by decide)
  refine ⟨?_, ?_, ?_⟩
  · rw [(h1.1 rfl).2.2.1]; decide
  · rw [(h1.1 rfl).2.1]; decide
  · rw [(h2.2 rfl).2 rfl]; decide

/-! ## Crawler lemmas -/

theorem crawlBlockAux_nonempty (P : Parser) (rootPath : String) (fs : FSDir) :
    ∀ (l : List FSNode) (reg : List RegItem),
      crawlBlockAux P rootPath fs l = .ok reg → ∀ item ∈ reg, item.files ≠ [] := by
  intro l
  induction l with
  | nil =>
    intro reg h item hmem
    simp only [crawlBlockAux] at h
    cases h
    cases hmem
  | cons nd rest ih =>
    intro reg h item hmem
    simp only [crawlBlockAux] at h
    by_cases hd : nd.isDir = true
    · rw [if_pos hd] at h
      cases hb : buildBlockRegistry P (rootPath ++ "/" ++ nodeName nd)
          (subdirAt fs (nodeName nd)) (nodeName nd) with
      | error e => rw [hb] at h; cases h
      | ok result =>
        rw [hb] at h
        cases hr : crawlBlockAux P rootPath fs rest with
        | error e => rw [hr] at h; cases h
        | ok items =>
          rw [hr] at h
          simp only [Except.ok.injEq] at h
          subst h
          cases hif : result.files.isEmpty with
          | true =>
            rw [hif] at hmem
            simp only [if_true] at hmem
            exact ih items hr item hmem
          | false =>
            rw [hif] at hmem
            simp only [Bool.false_eq_true, if_false] at hmem
            rcases List.mem_cons.mp hmem with hmem | hmem
            · subst hmem
              intro hcon
              rw [hcon] at hif
              cases hif
            · exact ih items hr item hmem
    · rw [if_neg hd] at h
      by_cases hv : jsEndsWith (nodeName nd) ".vue" = true
      · rw [if_pos hv] at h
        cases hr : crawlBlockAux P rootPath fs rest with
        | error e => rw [hr] at h; cases h
        | ok items =>
          rw [hr] at h
          simp only [Except.ok.injEq] at h
          subst h
          rcases List.mem_cons.mp hmem with hmem | hmem
          · subst hmem
            simp
          · exact ih items hr item hmem
      · rw [if_neg hv] at h
        exact ih reg h item hmem

/-- C6: every item the block crawl appends to the registry has at least
one file: an item assembled with zero files — e.g. a block directory
containing only an empty `components/` subfolder — is silently not
appended (the crawl still succeeds). -/
theorem spec_C6_empty_block_discarded (P : Parser) (rootPath : String) (fs : FSDir)
    (reg : List RegItem) (h : crawlBlock P rootPath fs = .ok reg) :
    ∀ item ∈ reg, item.files ≠ [] :=
  crawlBlockAux_nonempty P rootPath fs (childrenOf fs) reg h

theorem spec_C6_empty_block_discarded_witness :
    crawlBlock (constParser []) "r" fsEmptyBlock = .ok [] ∧
    ∀ item ∈ ([] : List RegItem), item.files ≠ [] :=
  ⟨rfl, spec_C6_empty_block_discarded (constParser []) "r" fsEmptyBlock [] rfl⟩

theorem segs_eq_of_len1 {nd : FSNode} (h : nd.segs.length = 1) :
    nd.segs = [nodeName nd] := by
  cases hs : nd.segs with
  | nil => rw [hs] at h; cases h
  | cons a l =>
    cases l with
    | nil => simp [nodeName, hs]
    | cons b m =>
      rw [hs] at h
      simp at h

theorem findChild_eq {nodes : List FSNode} {n : String} {nd : FSNode}
    (hnodup : (nodes.map FSNode.segs).Nodup) (hmem : nd ∈ nodes)
    (hsegs : nd.segs = [n]) :
    nodes.find? (fun x => x.segs == [n]) = some nd := by
  induction nodes with
  | nil => cases hmem
  | cons a l ih =>
    simp only [List.map_cons, List.nodup_cons] at hnodup
    rcases List.mem_cons.mp hmem with h | h
    · subst h
      simp [List.find?, hsegs]
    · have hane : (a.segs == [n]) = false := by
        cases hx : a.segs == [n] with
        | false => rfl
        | true =>
          exfalso
          have hae : a.segs = [n] := beq_iff_eq.mp hx
          have hin : nd.segs ∈ l.map FSNode.segs := List.mem_map_of_mem FSNode.segs h
          rw [hsegs] at hin
          exact hnodup.1 (by rw [hae]; exact hin)
      simp only [List.find?, hane]
      exact ih hnodup.2 h

theorem buildUIAux_spec (P : Parser) (cp cn : String) :
    ∀ l : List FSNode, (∀ nd ∈ l, nd.isDir = false) →
      ∀ files deps rdeps,
        (buildUIAux P cp cn l files deps rdeps).name = cn ∧
        (buildUIAux P cp cn l files deps rdeps).rtype = "registry:ui" ∧
        (buildUIAux P cp cn l files deps rdeps).files =
          files ++ l.map (fun nd =>
            (⟨pjoin (pjoin "ui" cn) (nodeName nd), nd.content,
              cn ++ "/" ++ nodeName nd, "registry:ui"⟩ : RegFileB)) := by
  intro l
  induction l with
  | nil =>
    intro _ files deps rdeps
    exact ⟨rfl, rfl, by simp [buildUIAux]⟩
  | cons nd rest ih =>
    intro hf files deps rdeps
    have hnd := hf nd (by simp)
    have hrest : ∀ x ∈ rest, x.isDir = false := fun x hx => hf x (by simp [hx])
    simp only [buildUIAux, hnd, Bool.false_eq_true, if_false]
    by_cases hidx : (nodeName nd == "index.ts") = true
    · rw [if_pos hidx]
      rcases ih hrest (files ++ [⟨pjoin (pjoin "ui" cn) (nodeName nd), nd.content,
        cn ++ "/" ++ nodeName nd, "registry:ui"⟩]) deps rdeps with ⟨h1, h2, h3⟩
      exact ⟨h1, h2, by rw [h3]; simp⟩
    · rw [if_neg hidx]
      rcases ih hrest (files ++ [⟨pjoin (pjoin "ui" cn) (nodeName nd), nd.content,
        cn ++ "/" ++ nodeName nd, "registry:ui"⟩])
        ((getFileDependencies P (pjoin cp (nodeName nd)) nd.content).dependencies.foldl
          addSet deps)
        ((getFileDependencies P (pjoin cp (nodeName nd)) nd.content).registryDependencies.foldl
          addSet rdeps) with ⟨h1, h2, h3⟩
      exact ⟨h1, h2, by rw [h3]; simp⟩

theorem subdirAt_mem {fs : FSDir} {n : String} {x : FSNode}
    (hx : x ∈ (subdirAt fs n).nodes) :
    ∃ nd ∈ fs.nodes, nd.segs = n :: x.segs ∧ x.isDir = nd.isDir ∧
      x.content = nd.content := by
  unfold subdirAt at hx
  simp only [List.mem_filterMap] at hx
  rcases hx with ⟨nd, hnd, hmap⟩
  cases hs : nd.segs with
  | nil => rw [hs] at hmap; cases hmap
  | cons m rest =>
    rw [hs] at hmap
    simp only at hmap
    by_cases hcond : (m == n && !rest.isEmpty) = true
    · rw [if_pos hcond] at hmap
      have hxe : x = { nd with segs := rest } := by
        injection hmap with hh
        exact hh.symm
      subst hxe
      refine ⟨nd, hnd, ?_, rfl, rfl⟩
      rw [hs]
      simp only [Bool.and_eq_true, beq_iff_eq] at hcond
      rw [hcond.1]
    · rw [if_neg hcond] at hmap
      cases hmap

theorem children_subdir_files {fs : FSDir} {n : String}
    (hflat : ∀ nd ∈ fs.nodes, nd.segs.length = 1 ∨
      (nd.segs.length = 2 ∧ nd.isDir = false)) :
    ∀ x ∈ childrenOf (subdirAt fs n), x.isDir = false := by
  intro x hx
  have hx' : x ∈ (subdirAt fs n).nodes ∧ x.segs.length = 1 := by
    unfold childrenOf at hx
    simp only [List.mem_filter] at hx
    exact ⟨hx.1, by simpa using hx.2⟩
  rcases subdirAt_mem hx'.1 with ⟨nd, hnd, hsegs, hdir, _⟩
  rcases hflat nd hnd with h | h
  · rw [hsegs] at h
    simp [hx'.2] at h
  · rw [hdir]
    exact h.2

theorem ui_files_spec_eq (fs : FSDir) (n : String)
    (hflat : ∀ nd ∈ fs.nodes, nd.segs.length = 1 ∨
      (nd.segs.length = 2 ∧ nd.isDir = false)) :
    (childrenOf (subdirAt fs n)).map (fun nd =>
      (⟨pjoin (pjoin "ui" n) (nodeName nd), nd.content,
        n ++ "/" ++ nodeName nd, "registry:ui"⟩ : RegFileB)) = uiFilesSpec fs n := by
  unfold childrenOf subdirAt uiFilesSpec
  rw [List.filter_filterMap, List.map_filterMap]
  apply List.filterMap_congr
  intro nd hnd
  rcases hflat nd hnd with h | h
  · cases hs : nd.segs with
    | nil => rw [hs] at h; cases h
    | cons a l =>
      cases l with
      | nil => simp [Option.filter]
      | cons b m =>
        rw [hs] at h
        simp at h
  · cases hs : nd.segs with
    | nil => rw [hs] at h; simp at h
    | cons a l =>
      cases l with
      | nil =>
        rw [hs] at h
        simp at h
      | cons b m =>
        cases m with
        | cons c mm =>
          rw [hs] at h
          simp at h
        | nil =>
          by_cases han : (a == n) = true
          · simp [han, h.2, Option.filter, nodeName]
          · simp [han, h.2]

theorem crawlUIAux_ok (P : Parser) (rootPath : String) (fs : FSDir)
    (hnodup : (fs.nodes.map FSNode.segs).Nodup)
    (hflat : ∀ nd ∈ fs.nodes, nd.segs.length = 1 ∨
      (nd.segs.length = 2 ∧ nd.isDir = false)) :
    ∀ l : List FSNode, (∀ nd ∈ l, nd ∈ fs.nodes) →
      crawlUIAux P rootPath fs l =
        .ok ((l.filter (fun nd => nd.isDir)).map (fun nd =>
          buildUIRegistry P (pjoin rootPath (nodeName nd))
            (subdirAt fs (nodeName nd)) (nodeName nd))) := by
  intro l
  induction l with
  | nil => intro _; rfl
  | cons nd rest ih =>
    intro hsub
    have hmem := hsub nd (by simp)
    have hrest : ∀ x ∈ rest, x ∈ fs.nodes := fun x hx => hsub x (by simp [hx])
    simp only [crawlUIAux]
    by_cases hd : nd.isDir = true
    · rw [if_pos hd]
      have hlen : nd.segs.length = 1 := by
        rcases hflat nd hmem with h | h
        · exact h
        · rw [h.2] at hd; cases hd
      have hsegs := segs_eq_of_len1 hlen
      have hfind : findChild fs (nodeName nd) = some nd :=
        findChild_eq hnodup hmem hsegs
      rw [hfind]
      simp only [hd, if_true]
      rw [ih hrest]
      simp [List.filter_cons, hd]
    · rw [if_neg hd]
      rw [ih hrest]
      congr 1
      simp [List.filter_cons, hd]

/-- C3 (amended): provided the ui root is well-formed (no two entries
share a path) and *flat* — every entry is an immediate child, or a file
directly inside an immediate child, with no directories nested deeper
than one level — the UI crawl succeeds and produces exactly one item per
immediate subdirectory, named after that subdirectory, whose files are
exactly the files directly inside it with target
`{componentName}/{fileName}`.  Without the flatness proviso the crawl
misbehaves: the recursive `readdir` reports nested directories by base
name only and `resolve(rootPath, name)` then points at a non-existent
or wrong immediate child (see the counterexample). -/
theorem spec_C3_ui_crawl
    (P : Parser) (rootPath : String) (fs : FSDir)
    (hnodup : (fs.nodes.map FSNode.segs).Nodup)
    (hflat : ∀ nd ∈ fs.nodes, nd.segs.length = 1 ∨
      (nd.segs.length = 2 ∧ nd.isDir = false)) :
    crawlUI P rootPath fs =
      .ok ((depth1Dirs fs).map (fun nd =>
        buildUIRegistry P (pjoin rootPath (nodeName nd))
          (subdirAt fs (nodeName nd)) (nodeName nd))) ∧
    ∀ nd ∈ depth1Dirs fs,
      (buildUIRegistry P (pjoin rootPath (nodeName nd))
        (subdirAt fs (nodeName nd)) (nodeName nd)).name = nodeName nd ∧
      (buildUIRegistry P (pjoin rootPath (nodeName nd))
        (subdirAt fs (nodeName nd)) (nodeName nd)).rtype = "registry:ui" ∧
      (buildUIRegistry P (pjoin rootPath (nodeName nd))
        (subdirAt fs (nodeName nd)) (nodeName nd)).files =
          uiFilesSpec fs (nodeName nd) := by
  constructor
  · have hrun := crawlUIAux_ok P rootPath fs hnodup hflat fs.nodes (fun x hx => hx)
    have hfd : fs.nodes.filter (fun nd => nd.isDir) = depth1Dirs fs := by
      unfold depth1Dirs
      apply List.filter_congr
      intro x hx
      rcases hflat x hx with h | h
      · simp [h]
      · simp [h.2]
    rw [show crawlUI P rootPath fs = crawlUIAux P rootPath fs fs.nodes from rfl, hrun, hfd]
  · intro nd _
    have hspec := buildUIAux_spec P (pjoin rootPath (nodeName nd)) (nodeName nd)
      (childrenOf (subdirAt fs (nodeName nd))) (children_subdir_files hflat) [] [] []
    refine ⟨hspec.1, hspec.2.1, ?_⟩
    rw [show buildUIRegistry P (pjoin rootPath (nodeName nd))
        (subdirAt fs (nodeName nd)) (nodeName nd) =
      buildUIAux P (pjoin rootPath (nodeName nd)) (nodeName nd)
        (childrenOf (subdirAt fs (nodeName nd))) [] [] [] from rfl]
    rw [hspec.2.2]
    simp only [List.nil_append]
    exact ui_files_spec_eq fs (nodeName nd) hflat

/-- C3 counterexample: a ui root whose immediate subdirectory `a`
contains a nested directory `b`.  The recursive listing reports `b` by
base name; `resolve(rootPath, 'b')` points at a non-existent immediate
child, so the whole crawl fails with `ENOENT` — no registry at all is
produced although the root has one immediate subdirectory. -/
theorem spec_C3_ui_crawl_cex :
    crawlUI (constParser []) "r" fsNested = .error "ENOENT" ∧
    depth1Dirs fsNested ≠ [] := by
  exact ⟨rfl, by decide⟩

theorem spec_C3_ui_crawl_witness :
    crawlUI (constParser []) "r" fsFlatUI =
      .ok ((depth1Dirs fsFlatUI).map (fun nd =>
        buildUIRegistry (constParser []) (pjoin "r" (nodeName nd))
          (subdirAt fsFlatUI (nodeName nd)) (nodeName nd))) ∧
    (buildUIRegistry (constParser []) (pjoin "r" "btn") (subdirAt fsFlatUI "btn")
      "btn").files = uiFilesSpec fsFlatUI "btn" := by
  have h := spec_C3_ui_crawl (constParser []) "r" fsFlatUI (by decide) (by decide)
  exact ⟨h.1, (h.2 ⟨["btn"], true, ""⟩ (by decide)).2.2⟩

end ShadcnVue
